import Mathlib

/-!
# TicTacToe-AI: rule engine, minimax search, move advisor and game controllers

A shallow embedding of `src/js/app.js` (the functions `checkWin`, `minimax`,
`getBestMoves`, `handleCellClick`, `commitMove`, `aiMove`, `highlightMistake`,
`endGame`, `startMpListener`, `mpSendMove`) together with the properties that the
specification states about them.
-/

namespace TicTacToe

/-- The two player symbols, the JavaScript strings `'X'` and `'O'`. -/
inductive Mark where
  | X
  | O
  deriving DecidableEq, Repr

/-- A board cell: `none` is JavaScript `null`, `some m` is the string of mark `m`. -/
abbrev Cell := Option Mark

/-- The board array.  `board[i]` is modelled by `board[i]?`: the outer `none` is
JavaScript `undefined` (index past the end), `some none` is `null`. -/
abbrev Board := List Cell

/-- A non-null return value of `checkWin`: the string of a mark or `'Draw'`. -/
inductive Result where
  | mark (m : Mark)
  | draw
  deriving DecidableEq, Repr

/-- JavaScript numbers that the search produces: integers and the two infinities. -/
inductive Score where
  | negInf
  | fin (n : Int)
  | posInf
  deriving DecidableEq, Repr

namespace Score

/-- The order `a <= b` on scores. -/
def le : Score → Score → Bool
  | negInf, _ => true
  | _, posInf => true
  | fin a, fin b => decide (a ≤ b)
  | _, _ => false

/-- The strict comparison `a > b`. -/
def gt (a b : Score) : Bool := !(le a b)

/-- The function `Math.max(a, b)`. -/
def max (a b : Score) : Score := if le a b then b else a

/-- The function `Math.min(a, b)`. -/
def min (a b : Score) : Score := if le a b then a else b

end Score

/-- The constant `WIN_PATTERNS`. -/
def WIN_PATTERNS : List (Nat × Nat × Nat) :=
  [(0, 1, 2), (3, 4, 5), (6, 7, 8), (0, 3, 6), (1, 4, 7), (2, 5, 8), (0, 4, 8), (2, 4, 6)]

/-- The test `board[a] && board[a] === board[b] && board[a] === board[c]` of one
pattern, giving `board[a]` when it passes. -/
def lineWinner (board : Board) (p : Nat × Nat × Nat) : Option Mark :=
  match board[p.1]? with
  | some (some m) =>
    if board[p.2.1]? = some (some m) ∧ board[p.2.2]? = some (some m) then some m else none
  | _ => none

/-- The function `checkWin`: the first pattern that passes decides; otherwise
`board.includes(null) ? null : 'Draw'`. -/
def checkWin (board : Board) : Option Result :=
  match WIN_PATTERNS.findSome? (lineWinner board) with
  | some m => some (Result.mark m)
  | none => if board.contains none then none else some Result.draw

/-- The expression `aiMark === 'X' ? 'O' : 'X'`. -/
def opponentOf (aiMark : Mark) : Mark := if aiMark = Mark.X then Mark.O else Mark.X

/-- The indices `i` in `0..8` with `board[i] === null`, ascending. -/
def emptyCells (board : Board) : List Nat :=
  (List.range 9).filter (fun i => board[i]? = some none)

/-- The body of `minimax`, with the recursion bounded by a counter.  The counter
is only consulted after the three terminal tests, and one unit is spent per
recursive call, that is per cell filled. -/
def minimaxAux : Nat → Board → Int → Bool → Mark → Score
  | fuel, board, depth, isMax, aiMark =>
    let result := checkWin board
    let opponent := opponentOf aiMark
    if result = some (Result.mark aiMark) then Score.fin (10 - depth)
    else if result = some (Result.mark opponent) then Score.fin (depth - 10)
    else if result = some Result.draw then Score.fin 0
    else
      match fuel with
      | 0 => if isMax then Score.negInf else Score.posInf
      | fuel + 1 =>
        if isMax then
          (List.range 9).foldl (fun best i =>
            if board[i]? = some none then
              Score.max best (minimaxAux fuel (board.set i (some aiMark)) (depth + 1) false aiMark)
            else best) Score.negInf
        else
          (List.range 9).foldl (fun best i =>
            if board[i]? = some none then
              Score.min best (minimaxAux fuel (board.set i (some opponent)) (depth + 1) true aiMark)
            else best) Score.posInf

/-- The function `minimax`.  The counter starts at the number of empty cells, which
is exactly the number of nested calls the source can make: each call fills one. -/
def minimax (board : Board) (depth : Int) (isMax : Bool) (aiMark : Mark) : Score :=
  minimaxAux (emptyCells board).length board depth isMax aiMark

/-- The object `{ moves, score }` returned by `getBestMoves`. -/
structure BestMoves where
  moves : List Nat
  score : Score
  deriving DecidableEq, Repr

/-- One turn of the `available.forEach` callback of `getBestMoves`. -/
def bestStep (board : Board) (player : Mark) (acc : BestMoves) (i : Nat) : BestMoves :=
  let score := minimax (board.set i (some player)) 0 false player
  if Score.gt score acc.score then { moves := [i], score := score }
  else if score = acc.score then { moves := acc.moves ++ [i], score := acc.score }
  else acc

/-- The function `getBestMoves`. -/
def getBestMoves (board : Board) (player : Mark) : BestMoves :=
  (emptyCells board).foldl (bestStep board player) { moves := [], score := Score.negInf }

/-- The empty board `Array(9).fill(null)`. -/
def emptyBoard : Board := List.replicate 9 none

/-- A win line in the words of the specification: the three cells of pattern `p`
all hold the same non-empty mark `m`. -/
def lineFull (board : Board) (p : Nat × Nat × Nat) (m : Mark) : Prop :=
  board[p.1]? = some (some m) ∧ board[p.2.1]? = some (some m) ∧ board[p.2.2]? = some (some m)

/-- The other mark, in the words of the specification. -/
def Mark.other : Mark → Mark
  | Mark.X => Mark.O
  | Mark.O => Mark.X

/-- The board `[X,X,X,O,O,null,null,null,null]` that the specification names as a
known terminal position. -/
def knownTerminal : Board :=
  [some Mark.X, some Mark.X, some Mark.X, some Mark.O, some Mark.O, none, none, none, none]

/-- The values of `gameState.mode`. -/
inductive Mode where
  | standard
  | learning
  | multiplayer
  deriving DecidableEq, Repr

/-- The global `gameState`.  `currentPlayer` is `null` after a terminal multiplayer
write; `winner` is `none` when the field is `null` or not yet set. -/
structure GameState where
  board : Board
  currentPlayer : Option Mark
  isActive : Bool
  mode : Mode
  playerMark : Mark
  mpId : Option String
  winner : Option Result
  deriving DecidableEq, Repr

/-- The fields that `mpSendMove` passes to `setDoc(..., { merge: true })`. -/
structure DocPatch where
  board : Board
  currentPlayer : Option Mark
  winner : Option Result
  deriving DecidableEq, Repr

/-- The shared game document as written by `createMpGame`.  The board is kept as the
array itself: the source stores `JSON.stringify(board)` and reads it back with
`JSON.parse`. -/
structure Doc where
  board : Board
  playerX : Option String
  playerO : Option String
  currentPlayer : Option Mark
  winner : Option Result
  createdAt : String
  deriving DecidableEq, Repr

/-- What a controller function leaves behind besides the new `gameState`: timers set
with `setTimeout` and writes to the shared document.  Rendering and status text are
not modelled. -/
inductive Effect where
  | scheduleAi
  | scheduleCorrection (correctIdx : Nat)
  | write (patch : DocPatch)
  deriving DecidableEq, Repr

/-- The store's merge-write: the fields of the patch replace the document's, every
other field stays (`setDoc` with `{ merge: true }`, an external collaborator). -/
def mergeWrite (doc : Doc) (patch : DocPatch) : Doc :=
  { doc with board := patch.board, currentPlayer := patch.currentPlayer, winner := patch.winner }

/-- The function `endGame`. -/
def endGame (s : GameState) (result : Result) : GameState :=
  { s with isActive := false, winner := some result }

/-- The function `commitMove`. -/
def commitMove (s : GameState) (index : Nat) (player : Mark) : GameState × List Effect :=
  if s.board[index]? ≠ some none then (s, [])
  else
    let s1 := { s with board := s.board.set index (some player) }
    match checkWin s1.board with
    | some res => (endGame s1 res, [])
    | none =>
      let s2 := { s1 with currentPlayer := some (if player = Mark.X then Mark.O else Mark.X) }
      if s2.mode ≠ Mode.multiplayer ∧ s2.currentPlayer ≠ some s2.playerMark then
        (s2, [Effect.scheduleAi])
      else (s2, [])

/-- The function `highlightMistake`.  `correctIdx` is `moves[0]`, which is `undefined`
when `moves` is empty; then `cells[correctIdx].classList` throws before the timer is
set. -/
def highlightMistake (s : GameState) (_wrongIdx : Nat) (correctIdx : Option Nat) :
    GameState × List Effect :=
  let s1 := { s with isActive := false }
  match correctIdx with
  | none => (s1, [])
  | some c => (s1, [Effect.scheduleCorrection c])

/-- The timer callback set by `highlightMistake`:
`gameState.isActive = true; commitMove(correctIdx, gameState.playerMark)`. -/
def correctionFire (s : GameState) (correctIdx : Nat) : GameState × List Effect :=
  commitMove { s with isActive := true } correctIdx s.playerMark

/-- The fields computed by `mpSendMove`.  It is only called on an index that holds
`null`, so the assignment `newBoard[index] = ...` stays inside the array. -/
def mpSendMove (s : GameState) (index : Nat) : DocPatch :=
  let newBoard := s.board.set index (some s.playerMark)
  let next := if s.playerMark = Mark.X then Mark.O else Mark.X
  let win := checkWin newBoard
  { board := newBoard,
    currentPlayer := if win.isSome then none else some next,
    winner := win }

/-- The function `handleCellClick`. -/
def handleCellClick (s : GameState) (index : Nat) : GameState × List Effect :=
  if !s.isActive || s.board[index]? ≠ some none then (s, [])
  else if s.mode = Mode.standard ∧ s.currentPlayer ≠ some s.playerMark then (s, [])
  else if s.mode = Mode.multiplayer then
    if s.currentPlayer ≠ some s.playerMark then (s, [])
    else (s, [Effect.write (mpSendMove s index)])
  else if s.mode = Mode.learning then
    let moves := (getBestMoves s.board s.playerMark).moves
    if !moves.contains index then highlightMistake s index moves.head?
    else commitMove s index s.playerMark
  else commitMove s index s.playerMark

/-- The first two statements of `startMpListener`. -/
def startMpListener (s : GameState) : GameState :=
  { s with mode := Mode.multiplayer, isActive := true }

/-- The change-notification callback installed by `startMpListener`. -/
def onSnapshot (s : GameState) (data : Doc) : GameState :=
  let s1 := { s with board := data.board, currentPlayer := data.currentPlayer }
  match data.winner with
  | some w => endGame s1 w
  | none => s1


/-- A standard-mode position in which cell 0 is taken and it is the human's turn. -/
def occupiedState : GameState :=
  { board := [some Mark.X, some Mark.O, none, none, none, none, none, none, none],
    currentPlayer := some Mark.X, isActive := true, mode := Mode.standard,
    playerMark := Mark.X, mpId := none, winner := none }

/-- The joiner `O` whose cache still shows turn `X` on the empty board. -/
def joinerState : GameState :=
  { board := emptyBoard, currentPlayer := some Mark.X, isActive := true,
    mode := Mode.multiplayer, playerMark := Mark.O, mpId := some "123456", winner := none }

/-- The host `X` on the empty board with the turn `X`. -/
def hostState : GameState :=
  { board := emptyBoard, currentPlayer := some Mark.X, isActive := true,
    mode := Mode.multiplayer, playerMark := Mark.X, mpId := some "123456", winner := none }

/-- The document written by `createMpGame`, after a guest has joined. -/
def freshDoc : Doc :=
  { board := emptyBoard, playerX := some "host", playerO := some "guest",
    currentPlayer := some Mark.X, winner := none, createdAt := "2025-01-01T00:00:00.000Z" }

/-- A client that finished a local game won by `X` and then entered a multiplayer
session through `startMpListener`: the old `winner` is still in `gameState`. -/
def staleWinnerState : GameState :=
  startMpListener
    (endGame
      { board := knownTerminal, currentPlayer := some Mark.X, isActive := true,
        mode := Mode.standard, playerMark := Mark.X, mpId := some "123456", winner := none }
      (Result.mark Mark.X))

/-- A learning-mode position with `X` to move: `X` wins at once on cell 2 and cell 5
would only block `O`. -/
def learnState : GameState :=
  { board := [some Mark.X, some Mark.X, none, some Mark.O, some Mark.O, none, none, none, none],
    currentPlayer := some Mark.X, isActive := true, mode := Mode.learning,
    playerMark := Mark.X, mpId := none, winner := none }

/-- The sign of a score: `1` for a win of the searching mark, `-1` for a loss, `0` for a
draw; the infinities count as their sign. -/
def Score.sgn : Score → Int
  | Score.negInf => -1
  | Score.fin v => if 0 < v then 1 else if v < 0 then -1 else 0
  | Score.posInf => 1

/-- Runs `k` on a 9-cell board given cell by cell; fails on any other list. -/
def withNine (board : Board) (k : Board → Option (List Nat)) : Option (List Nat) :=
  match board with
  | [c0, c1, c2, c3, c4, c5, c6, c7, c8] => k [c0, c1, c2, c3, c4, c5, c6, c7, c8]
  | _ => none

/-- The strategy checker behind the value of the empty board.  `holdsDraw fuel cert board
isMax aiMark` walks the game tree from `board`: where `aiMark` is to move (`isMax`) it
follows the next index of `cert`, where the other mark is to move it visits every empty
cell; it fails on a position the other mark has won and returns the unread part of
`cert` otherwise.  Success means that `aiMark` does not lose from `board`. -/
def holdsDraw : Nat → List Nat → Board → Bool → Mark → Option (List Nat)
  | 0, _, _, _, _ => none
  | fuel + 1, cert, board, isMax, aiMark =>
    match checkWin board with
    | some (Result.mark w) => if w = aiMark then some cert else none
    | some Result.draw => some cert
    | none =>
      if isMax then
        match cert with
        | [] => none
        | i :: rest =>
          if i < 9 ∧ board[i]? = some none then
            withNine (board.set i (some aiMark)) (fun b => holdsDraw fuel rest b false aiMark)
          else none
      else
        [0, 1, 2, 3, 4, 5, 6, 7, 8].foldl (fun acc i =>
          match acc with
          | none => none
          | some cert' =>
            if board[i]? = some none then
              withNine (board.set i (some aiMark.other))
                (fun b => holdsDraw fuel cert' b true aiMark)
            else some cert') (some cert)

/-- The moves of a strategy with which the side that moves first never loses, in the
order in which `holdsDraw` reads them. -/
def firstMoverStrategy : List Nat :=
  [0, 3, 6, 6, 6, 4, 5, 8, 5, 5, 6, 6, 3, 6, 6, 6, 4, 5, 8, 5, 5, 6, 6, 1, 4, 7, 7, 8, 7, 2, 2,
   2, 2, 2, 1, 6, 5, 8, 7, 3, 3, 3, 2, 2, 2, 2, 2, 2, 4, 6, 8, 6, 6, 1, 1, 1, 1, 1, 1, 4, 7, 7,
   8, 7, 2, 2, 2, 2, 2, 2, 4, 6, 6, 8, 6, 1, 1, 1, 1, 1, 2, 6, 4, 3, 3, 3, 1, 1, 1, 1, 1]

/-- The moves of a strategy with which the side that moves second never loses, in the
order in which `holdsDraw` reads them. -/
def secondMoverStrategy : List Nat :=
  [4, 2, 6, 6, 3, 7, 5, 5, 6, 6, 1, 7, 7, 7, 3, 8, 5, 5, 7, 6, 2, 1, 7, 5, 5, 2, 2, 2, 1, 7, 7,
   7, 6, 8, 2, 2, 7, 3, 5, 5, 1, 7, 8, 7, 5, 5, 3, 5, 5, 2, 6, 8, 6, 5, 5, 1, 7, 7, 7, 7, 6, 5,
   2, 2, 4, 2, 6, 6, 3, 7, 5, 5, 6, 6, 0, 8, 8, 8, 8, 5, 6, 3, 3, 0, 8, 8, 8, 8, 2, 6, 7, 6, 0,
   8, 8, 8, 8, 2, 6, 7, 6, 0, 8, 8, 8, 8, 7, 5, 2, 2, 0, 8, 8, 8, 8, 6, 3, 2, 2, 2, 6, 6, 6, 7,
   3, 0, 0, 6, 4, 1, 7, 7, 7, 3, 8, 5, 5, 7, 0, 8, 8, 8, 8, 5, 6, 3, 3, 0, 8, 8, 8, 8, 5, 6, 7,
   6, 8, 1, 6, 3, 3, 0, 0, 0, 0, 1, 7, 7, 7, 8, 3, 0, 0, 7, 3, 5, 5, 8, 1, 0, 0, 5, 5, 5, 3, 3,
   0, 6, 7, 6, 3, 3, 4, 6, 2, 1, 7, 5, 5, 2, 2, 2, 0, 8, 8, 8, 8, 2, 6, 7, 6, 0, 8, 8, 8, 8, 5,
   6, 7, 6, 0, 8, 8, 8, 8, 2, 6, 1, 1, 0, 8, 8, 8, 8, 7, 2, 1, 1, 0, 8, 8, 8, 8, 6, 2, 5, 2, 1,
   7, 7, 7, 7, 6, 2, 5, 2, 0, 7, 6, 5, 3, 3, 5, 6, 2, 2, 3, 6, 2, 2, 2, 5, 3, 3, 2, 5, 3, 3, 6,
   3, 5, 7, 1, 1, 3, 3, 3, 5, 7, 6, 2, 2, 6, 7, 1, 1, 2, 7, 1, 1, 1, 6, 2, 2, 1, 6, 2, 2, 3, 6,
   6, 2, 7, 1, 1, 6, 6, 2, 7, 5, 3, 3, 1, 1, 1, 1, 1, 6, 5, 3, 3, 2, 2, 2, 2, 2, 7, 5, 3, 3, 1,
   1, 1, 1, 4, 1, 7, 7, 7, 6, 8, 2, 2, 7, 0, 8, 8, 8, 8, 2, 6, 7, 6, 8, 1, 6, 3, 3, 0, 0, 0, 0,
   0, 8, 8, 8, 8, 2, 6, 1, 1, 1, 7, 7, 7, 8, 3, 0, 0, 7, 2, 6, 6, 6, 8, 3, 0, 0, 6, 2, 6, 6, 6,
   7, 1, 0, 0, 6, 4, 3, 5, 5, 1, 7, 8, 7, 5, 5, 0, 8, 8, 8, 8, 7, 5, 2, 2, 1, 7, 7, 7, 8, 3, 0,
   0, 7, 0, 8, 8, 8, 8, 7, 2, 1, 1, 1, 7, 7, 7, 8, 3, 0, 0, 7, 8, 3, 2, 1, 1, 0, 0, 0, 0, 7, 1,
   0, 5, 2, 2, 1, 1, 1, 4, 3, 5, 5, 2, 6, 8, 6, 5, 5, 0, 8, 8, 8, 8, 6, 3, 2, 2, 3, 5, 5, 8, 1,
   0, 0, 5, 5, 0, 8, 8, 8, 8, 6, 2, 5, 2, 2, 6, 6, 6, 8, 3, 0, 0, 6, 8, 3, 2, 1, 1, 0, 0, 0, 0,
   6, 2, 2, 5, 1, 0, 0, 2, 2, 4, 1, 7, 7, 7, 7, 6, 5, 2, 2, 2, 6, 6, 6, 7, 3, 0, 0, 6, 5, 3, 3,
   0, 6, 7, 6, 3, 3, 1, 7, 7, 7, 7, 6, 2, 5, 2, 2, 6, 6, 6, 7, 1, 0, 0, 6, 7, 1, 0, 5, 2, 2, 1,
   1, 1, 6, 2, 2, 5, 1, 0, 0, 2, 2]

/-- Positions reachable from the empty board when the two marks alternate and every mover
places its mark on a member of `getBestMoves(board, mover).moves` while `checkWin` is
`null`.  `OptimalPlay n board m` says that `board` is reached after `n` moves with `m`
next to move. -/
inductive OptimalPlay : Nat → Board → Mark → Prop where
  | start (first : Mark) : OptimalPlay 0 emptyBoard first
  | move {n : Nat} {board : Board} {m : Mark} {i : Nat} :
      OptimalPlay n board m → checkWin board = none → i ∈ (getBestMoves board m).moves →
      OptimalPlay (n + 1) (board.set i (some m)) m.other

/-- The full board `[X,O,X,O,X,O,X,O,X]` that the specification calls a draw. -/
def specDrawBoard : Board :=
  [some Mark.X, some Mark.O, some Mark.X, some Mark.O, some Mark.X, some Mark.O,
    some Mark.X, some Mark.O, some Mark.X]

/-- A full board without a completed line: `[X,O,X,X,O,O,O,X,X]`. -/
def fullNoLineBoard : Board :=
  [some Mark.X, some Mark.O, some Mark.X, some Mark.X, some Mark.O, some Mark.O,
    some Mark.O, some Mark.X, some Mark.X]

/-- In the words of the claim: placing `m` on cell `i` completes a win line for `m`. -/
def winsAt (board : Board) (m : Mark) (i : Nat) : Prop :=
  ∃ p ∈ WIN_PATTERNS, lineFull (board.set i (some m)) p m

/-- In the words of the claim: the board has no completed line. -/
def noLine (board : Board) : Prop :=
  ∀ p ∈ WIN_PATTERNS, ∀ w, ¬ lineFull board p w

/-- The initial value of the global `gameState`. -/
def initialState : GameState :=
  { board := emptyBoard, currentPlayer := some Mark.X, isActive := false,
    mode := Mode.standard, playerMark := Mark.X, mpId := none, winner := none }

/-- The function `startLocalGame`.  In standard mode `starter` is the value of
`Math.random() < 0.5 ? 'X' : 'O'`; in learning mode `pMark` and `starter` are the values
of the two select elements `learn-player` and `learn-starter`. -/
def startLocalGame (s : GameState) (mode : Mode) (pMark starter : Mark) :
    GameState × List Effect :=
  let s1 := { s with mode := mode, isActive := true, board := emptyBoard, winner := none }
  match mode with
  | Mode.standard =>
    ({ s1 with playerMark := Mark.X, currentPlayer := some starter },
      if starter = Mark.O then [Effect.scheduleAi] else [])
  | Mode.learning =>
    ({ s1 with playerMark := pMark, currentPlayer := some starter },
      if starter ≠ pMark then [Effect.scheduleAi] else [])
  | Mode.multiplayer => (s1, [])

/-- The function `aiMove`.  `r % moves.length` stands for
`Math.floor(Math.random() * moves.length)`, any index of `moves`.  A `null` turn only
exists in a multiplayer session, where no `aiMove` timer is set; that case is left
unchanged here. -/
def aiMove (s : GameState) (r : Nat) : GameState × List Effect :=
  if !s.isActive then (s, [])
  else if s.currentPlayer = some s.playerMark then (s, [])
  else
    match s.currentPlayer with
    | none => (s, [])
    | some aiMark =>
      let moves := (getBestMoves s.board aiMark).moves
      if 0 < moves.length then
        match moves[r % moves.length]? with
        | some pick => commitMove s pick aiMark
        | none => (s, [])
      else (s, [])

/-- The number of cells of the board that hold mark `m`. -/
def markCount (board : Board) (m : Mark) : Nat := board.count (some m)

/-- The mark-count invariant of the specification: for one of the two marks (the side
that moved first) the board holds as many marks as of the other, or exactly one more. -/
def alternates (board : Board) : Prop :=
  ∃ a : Mark, markCount board a = markCount board a.other ∨
    markCount board a = markCount board a.other + 1

/-- A configuration of the local game controller: the game state and the timers that
are set and have not fired yet. -/
abbrev LocalConfig := GameState × List Effect

/-- One event of the local game controller: a cell click, an `aiMove` timer that fires,
or a correction timer of `highlightMistake` that fires. -/
inductive LocalStep : LocalConfig → LocalConfig → Prop where
  | click (s : GameState) (timers : List Effect) (index : Nat) :
      LocalStep (s, timers)
        ((handleCellClick s index).1, timers ++ (handleCellClick s index).2)
  | ai (s : GameState) (timers : List Effect) (r : Nat) :
      Effect.scheduleAi ∈ timers →
      LocalStep (s, timers)
        ((aiMove s r).1, timers.erase Effect.scheduleAi ++ (aiMove s r).2)
  | correction (s : GameState) (timers : List Effect) (c : Nat) :
      Effect.scheduleCorrection c ∈ timers →
      LocalStep (s, timers)
        ((correctionFire s c).1,
          timers.erase (Effect.scheduleCorrection c) ++ (correctionFire s c).2)

/-- The configurations reachable from `startLocalGame(mode)` by any interleaving of
clicks and timers. -/
inductive LocalReachable (mode : Mode) : LocalConfig → Prop where
  | start (s : GameState) (pMark starter : Mark) :
      LocalReachable mode (startLocalGame s mode pMark starter)
  | step {c c' : LocalConfig} : LocalReachable mode c → LocalStep c c' →
      LocalReachable mode c'

/-- The learning-mode game in which the human plays `X` and moves first. -/
def learnStart : GameState :=
  (startLocalGame initialState Mode.learning Mark.X Mark.X).1

/-- The state `learnStart` after the human's accepted click on cell 0: `X` on cell 0,
turn `O`. -/
def learnAfterFirst : GameState :=
  { board := [some Mark.X, none, none, none, none, none, none, none, none],
    currentPlayer := some Mark.O, isActive := true, mode := Mode.learning,
    playerMark := Mark.X, mpId := none, winner := none }

/-! ## Theorems -/

theorem lineWinner_eq_some_iff (board : Board) (p : Nat × Nat × Nat) (m : Mark) :
    lineWinner board p = some m ↔ lineFull board p m := by
  unfold lineWinner lineFull
  constructor
  · intro h
    split at h
    · next m' hm' =>
      split at h
      · next hc =>
        cases h
        exact ⟨hm', hc.1, hc.2⟩
      · cases h
    · cases h
  · rintro ⟨h1, h2, h3⟩
    simp [h1, h2, h3]

theorem lineWinner_eq_none_iff (board : Board) (p : Nat × Nat × Nat) :
    lineWinner board p = none ↔ ∀ m, ¬ lineFull board p m := by
  constructor
  · intro h m hm
    rw [(lineWinner_eq_some_iff board p m).mpr hm] at h
    cases h
  · intro h
    cases hw : lineWinner board p with
    | none => rfl
    | some m => exact absurd ((lineWinner_eq_some_iff board p m).mp hw) (h m)

/-- C1. `checkWin` returns a mark `m` exactly when some win line is full, `m` being the
mark of the first full line in `WIN_PATTERNS` order; a mark is returned exactly when at
least one of the 8 lines is full; and when no line is full it returns `'Draw'` if no
cell is `null` and `null` otherwise. -/
theorem checkWin_spec (board : Board) :
    (∀ m, checkWin board = some (Result.mark m) ↔
      ∃ before p after, WIN_PATTERNS = before ++ p :: after ∧ lineFull board p m ∧
        ∀ q ∈ before, ∀ m', ¬ lineFull board q m') ∧
    ((∃ m, checkWin board = some (Result.mark m)) ↔
      ∃ p ∈ WIN_PATTERNS, ∃ m, lineFull board p m) ∧
    ((∀ p ∈ WIN_PATTERNS, ∀ m, ¬ lineFull board p m) →
      checkWin board = if none ∈ board then none else some Result.draw) ∧
    WIN_PATTERNS = [(0, 1, 2), (3, 4, 5), (6, 7, 8), (0, 3, 6), (1, 4, 7), (2, 5, 8),
      (0, 4, 8), (2, 4, 6)] := by
  have key : ∀ m, checkWin board = some (Result.mark m) ↔
      WIN_PATTERNS.findSome? (lineWinner board) = some m := by
    intro m
    unfold checkWin
    cases hf : WIN_PATTERNS.findSome? (lineWinner board) with
    | none =>
      by_cases hc : board.contains none = true <;> simp [hc]
    | some m' => simp
  refine ⟨?_, ?_, ?_, rfl⟩
  · intro m
    rw [key, List.findSome?_eq_some_iff]
    constructor
    · rintro ⟨l₁, a, l₂, h1, h2, h3⟩
      exact ⟨l₁, a, l₂, h1, (lineWinner_eq_some_iff _ _ _).mp h2,
        fun q hq => (lineWinner_eq_none_iff _ _).mp (h3 q hq)⟩
    · rintro ⟨l₁, a, l₂, h1, h2, h3⟩
      exact ⟨l₁, a, l₂, h1, (lineWinner_eq_some_iff _ _ _).mpr h2,
        fun q hq => (lineWinner_eq_none_iff _ _).mpr (h3 q hq)⟩
  · constructor
    · rintro ⟨m, hm⟩
      rw [key] at hm
      obtain ⟨p, hp, hpm⟩ := List.exists_of_findSome?_eq_some hm
      exact ⟨p, hp, m, (lineWinner_eq_some_iff _ _ _).mp hpm⟩
    · rintro ⟨p, hp, m, hm⟩
      cases hf : WIN_PATTERNS.findSome? (lineWinner board) with
      | none =>
        rw [List.findSome?_eq_none_iff] at hf
        have := hf p hp
        rw [(lineWinner_eq_some_iff _ _ _).mpr hm] at this
        cases this
      | some m' => exact ⟨m', (key m').mpr hf⟩
  · intro h
    have hf : WIN_PATTERNS.findSome? (lineWinner board) = none := by
      rw [List.findSome?_eq_none_iff]
      intro p hp
      exact (lineWinner_eq_none_iff _ _).mpr (h p hp)
    unfold checkWin
    rw [hf]
    by_cases hc : none ∈ board <;> simp [hc]

namespace Score

theorem le_refl (a : Score) : le a a = true := by
  cases a <;> simp [le]

theorem le_trans {a b c : Score} (h1 : le a b = true) (h2 : le b c = true) : le a c = true := by
  cases a <;> cases b <;> cases c <;> simp_all [le]
  omega

theorem le_total (a b : Score) : le a b = true ∨ le b a = true := by
  cases a <;> cases b <;> simp [le]
  omega

theorem le_antisymm {a b : Score} (h1 : le a b = true) (h2 : le b a = true) : a = b := by
  cases a <;> cases b <;> simp_all [le]
  omega

theorem le_max_left (a b : Score) : le a (max a b) = true := by
  unfold max
  split
  · assumption
  · exact le_refl a

theorem le_max_right (a b : Score) : le b (max a b) = true := by
  unfold max
  split
  · exact le_refl b
  · rcases le_total a b with h | h
    · contradiction
    · exact h

theorem max_eq_or (a b : Score) : max a b = a ∨ max a b = b := by
  unfold max
  split <;> simp

theorem min_le_left (a b : Score) : le (min a b) a = true := by
  unfold min
  split
  · exact le_refl a
  · rcases le_total a b with h | h
    · contradiction
    · exact h

theorem min_le_right (a b : Score) : le (min a b) b = true := by
  unfold min
  split
  · assumption
  · exact le_refl b

theorem min_eq_or (a b : Score) : min a b = a ∨ min a b = b := by
  unfold min
  split <;> simp

end Score

/-- The result of the maximising loop bounds every visited candidate from above, is
at least the initial value, and is the initial value or one of the candidates. -/
theorem foldl_max_spec (p : Nat → Prop) [DecidablePred p] (f : Nat → Score) (l : List Nat)
    (init : Score) :
    let r := l.foldl (fun best i => if p i then Score.max best (f i) else best) init
    Score.le init r = true ∧ (∀ i ∈ l, p i → Score.le (f i) r = true) ∧
      (r = init ∨ ∃ i ∈ l, p i ∧ f i = r) := by
  induction l generalizing init with
  | nil => simp [Score.le_refl]
  | cons a l ih =>
    simp only [List.foldl_cons]
    by_cases hp : p a
    · simp only [hp, if_true]
      obtain ⟨h1, h2, h3⟩ := ih (Score.max init (f a))
      refine ⟨Score.le_trans (Score.le_max_left _ _) h1, ?_, ?_⟩
      · intro i hi hpi
        rcases List.mem_cons.mp hi with rfl | hi
        · exact Score.le_trans (Score.le_max_right _ _) h1
        · exact h2 i hi hpi
      · rcases h3 with h3 | ⟨i, hi, hpi, hfi⟩
        · rcases Score.max_eq_or init (f a) with hm | hm
          · left; rw [h3, hm]
          · right; exact ⟨a, List.mem_cons_self _ _, hp, by rw [h3, hm]⟩
        · right; exact ⟨i, List.mem_cons_of_mem _ hi, hpi, hfi⟩
    · simp only [hp, if_false]
      obtain ⟨h1, h2, h3⟩ := ih init
      refine ⟨h1, ?_, ?_⟩
      · intro i hi hpi
        rcases List.mem_cons.mp hi with rfl | hi
        · exact absurd hpi hp
        · exact h2 i hi hpi
      · rcases h3 with h3 | ⟨i, hi, hpi, hfi⟩
        · left; exact h3
        · right; exact ⟨i, List.mem_cons_of_mem _ hi, hpi, hfi⟩

/-- The mirror statement for the minimising loop. -/
theorem foldl_min_spec (p : Nat → Prop) [DecidablePred p] (f : Nat → Score) (l : List Nat)
    (init : Score) :
    let r := l.foldl (fun best i => if p i then Score.min best (f i) else best) init
    Score.le r init = true ∧ (∀ i ∈ l, p i → Score.le r (f i) = true) ∧
      (r = init ∨ ∃ i ∈ l, p i ∧ f i = r) := by
  induction l generalizing init with
  | nil => simp [Score.le_refl]
  | cons a l ih =>
    simp only [List.foldl_cons]
    by_cases hp : p a
    · simp only [hp, if_true]
      obtain ⟨h1, h2, h3⟩ := ih (Score.min init (f a))
      refine ⟨Score.le_trans h1 (Score.min_le_left _ _), ?_, ?_⟩
      · intro i hi hpi
        rcases List.mem_cons.mp hi with rfl | hi
        · exact Score.le_trans h1 (Score.min_le_right _ _)
        · exact h2 i hi hpi
      · rcases h3 with h3 | ⟨i, hi, hpi, hfi⟩
        · rcases Score.min_eq_or init (f a) with hm | hm
          · left; rw [h3, hm]
          · right; exact ⟨a, List.mem_cons_self _ _, hp, by rw [h3, hm]⟩
        · right; exact ⟨i, List.mem_cons_of_mem _ hi, hpi, hfi⟩
    · simp only [hp, if_false]
      obtain ⟨h1, h2, h3⟩ := ih init
      refine ⟨h1, ?_, ?_⟩
      · intro i hi hpi
        rcases List.mem_cons.mp hi with rfl | hi
        · exact absurd hpi hp
        · exact h2 i hi hpi
      · rcases h3 with h3 | ⟨i, hi, hpi, hfi⟩
        · left; exact h3
        · right; exact ⟨i, List.mem_cons_of_mem _ hi, hpi, hfi⟩

theorem mem_emptyCells (board : Board) (i : Nat) :
    i ∈ emptyCells board ↔ i < 9 ∧ board[i]? = some none := by
  simp [emptyCells]

theorem emptyCells_sorted (board : Board) : (emptyCells board).Sorted (· < ·) := by
  unfold emptyCells
  apply List.Sorted.filter
  decide

/-- Filling an empty cell among the first nine leaves one empty cell fewer. -/
theorem emptyCells_set_length (board : Board) (i : Nat) (m : Mark) (hi : i < 9)
    (hc : board[i]? = some none) :
    (emptyCells (board.set i (some m))).length + 1 = (emptyCells board).length := by
  have hlen : i < board.length := by
    rcases Nat.lt_or_ge i board.length with h | h
    · exact h
    · rw [List.getElem?_eq_none h] at hc; cases hc
  have key : ∀ j, ((board.set i (some m))[j]? = some none) ↔ (j ≠ i ∧ board[j]? = some none) := by
    intro j
    by_cases hj : j = i
    · subst hj
      simp [List.getElem?_set_self hlen]
    · have hne : i ≠ j := fun h => hj h.symm
      simp [List.getElem?_set_ne hne, hj]
  have e1 : emptyCells (board.set i (some m)) =
      (emptyCells board).filter (fun j => decide (j ≠ i)) := by
    unfold emptyCells
    rw [List.filter_filter]
    apply List.filter_congr
    intro j _
    have := key j
    by_cases h1 : (board.set i (some m))[j]? = some none
    · have h2 := this.mp h1
      simp [h1, h2.1, h2.2]
    · by_cases h2 : j = i
      · subst h2
        simp [h1]
      · have h3 : ¬ board[j]? = some none := fun h => h1 (this.mpr ⟨h2, h⟩)
        simp [h1, h3]
  rw [e1]
  have hmem : i ∈ emptyCells board := (mem_emptyCells board i).mpr ⟨hi, hc⟩
  have hnd : (emptyCells board).Nodup := (emptyCells_sorted board).nodup
  have e2 : (emptyCells board).filter (fun j => decide (j ≠ i)) = (emptyCells board).erase i := by
    rw [List.Nodup.erase_eq_filter hnd]
    apply List.filter_congr
    intro j _
    by_cases h : j = i <;> simp [h]
  rw [e2, List.length_erase_of_mem hmem]
  have : 0 < (emptyCells board).length := List.length_pos_of_mem hmem
  omega

theorem foldl_skip {α : Type} (p : Nat → Prop) [DecidablePred p] (g : α → Nat → α)
    (l : List Nat) (init : α) (h : ∀ i ∈ l, ¬ p i) :
    l.foldl (fun best i => if p i then g best i else best) init = init := by
  induction l generalizing init with
  | nil => rfl
  | cons a l ih =>
    have ha : ¬ p a := h a (List.mem_cons_self _ _)
    simp only [List.foldl_cons, ha, if_false]
    exact ih init (fun i hi => h i (List.mem_cons_of_mem _ hi))

/-- The body of the source function `minimax`, with the recursive calls being calls of
`minimax` itself: the counter of `minimaxAux` never runs out. -/
theorem minimax_eq (board : Board) (depth : Int) (isMax : Bool) (aiMark : Mark) :
    minimax board depth isMax aiMark =
      if checkWin board = some (Result.mark aiMark) then Score.fin (10 - depth)
      else if checkWin board = some (Result.mark (opponentOf aiMark)) then Score.fin (depth - 10)
      else if checkWin board = some Result.draw then Score.fin 0
      else if isMax then
        (List.range 9).foldl (fun best i =>
          if board[i]? = some none then
            Score.max best (minimax (board.set i (some aiMark)) (depth + 1) false aiMark)
          else best) Score.negInf
      else
        (List.range 9).foldl (fun best i =>
          if board[i]? = some none then
            Score.min best
              (minimax (board.set i (some (opponentOf aiMark))) (depth + 1) true aiMark)
          else best) Score.posInf := by
  unfold minimax
  cases hn : (emptyCells board).length with
  | zero =>
    have hnone : ∀ i ∈ List.range 9, ¬ board[i]? = some none := by
      intro i hi hc
      have hmem : i ∈ emptyCells board :=
        (mem_emptyCells board i).mpr ⟨List.mem_range.mp hi, hc⟩
      have := List.length_pos_of_mem hmem
      omega
    unfold minimaxAux

    rw [foldl_skip _ _ _ _ hnone, foldl_skip _ _ _ _ hnone]
  | succ k =>
    have hk : ∀ i ∈ List.range 9, board[i]? = some none → ∀ m,
        (emptyCells (board.set i (some m))).length = k := by
      intro i hi hc m
      have := emptyCells_set_length board i m (List.mem_range.mp hi) hc
      omega
    rw [minimaxAux]

    have e1 : (List.range 9).foldl (fun best i =>
          if board[i]? = some none then
            Score.max best (minimaxAux k (board.set i (some aiMark)) (depth + 1) false aiMark)
          else best) Score.negInf =
        (List.range 9).foldl (fun best i =>
          if board[i]? = some none then
            Score.max best (minimaxAux (emptyCells (board.set i (some aiMark))).length
              (board.set i (some aiMark)) (depth + 1) false aiMark)
          else best) Score.negInf := by
      apply List.foldl_ext
      intro a i hi
      by_cases hc : board[i]? = some none
      · simp only [hc, if_true, hk i hi hc]
      · simp only [hc, if_false]
    have e2 : (List.range 9).foldl (fun best i =>
          if board[i]? = some none then
            Score.min best
              (minimaxAux k (board.set i (some (opponentOf aiMark))) (depth + 1) true aiMark)
          else best) Score.posInf =
        (List.range 9).foldl (fun best i =>
          if board[i]? = some none then
            Score.min best (minimaxAux (emptyCells (board.set i (some (opponentOf aiMark)))).length
              (board.set i (some (opponentOf aiMark))) (depth + 1) true aiMark)
          else best) Score.posInf := by
      apply List.foldl_ext
      intro a i hi
      by_cases hc : board[i]? = some none
      · simp only [hc, if_true, hk i hi hc]
      · simp only [hc, if_false]
    rw [e1, e2]

theorem opponentOf_eq_other (m : Mark) : opponentOf m = m.other := by
  cases m <;> rfl

theorem Mark.eq_or_eq_other (a m : Mark) : m = a ∨ m = a.other := by
  cases a <;> cases m <;> simp [Mark.other]

theorem Mark.other_ne (a : Mark) : a.other ≠ a := by
  cases a <;> simp [Mark.other]

theorem Mark.other_other (a : Mark) : a.other.other = a := by
  cases a <;> rfl

/-- A board that is not finished has a `null` cell; on a 9-cell board it lies in `0..8`. -/
theorem exists_empty_of_checkWin_none (board : Board) (hb : board.length = 9)
    (h : checkWin board = none) : ∃ i, i < 9 ∧ board[i]? = some none := by
  unfold checkWin at h
  split at h
  · cases h
  · split at h
    · next hc =>
      have hmem : (none : Cell) ∈ board := by simpa using hc
      obtain ⟨i, hi⟩ := List.mem_iff_getElem?.mp hmem
      refine ⟨i, ?_, hi⟩
      rcases Nat.lt_or_ge i board.length with hlt | hge
      · omega
      · rw [List.getElem?_eq_none hge] at hi; cases hi
    · cases h

/-- The three terminal returns of `minimax`. -/
theorem minimax_terminal (board : Board) (d : Int) (isMax : Bool) (aiMark : Mark) :
    (checkWin board = some (Result.mark aiMark) →
      minimax board d isMax aiMark = Score.fin (10 - d)) ∧
    (checkWin board = some (Result.mark aiMark.other) →
      minimax board d isMax aiMark = Score.fin (d - 10)) ∧
    (checkWin board = some Result.draw → minimax board d isMax aiMark = Score.fin 0) := by
  refine ⟨?_, ?_, ?_⟩
  · intro h
    rw [minimax_eq, if_pos h]
  · intro h
    have hne : ¬ (some (Result.mark aiMark.other) = some (Result.mark aiMark)) := by
      intro hc
      injection hc with hc
      injection hc with hc
      exact Mark.other_ne aiMark hc
    rw [minimax_eq, h, if_neg hne, opponentOf_eq_other, if_pos rfl]
  · intro h
    rw [minimax_eq, h, if_neg (by simp), if_neg (by simp), if_pos rfl]

/-- The two loops of `minimax` on a board that is not finished. -/
theorem minimax_nonterminal (board : Board) (d : Int) (isMax : Bool) (aiMark : Mark)
    (h : checkWin board = none) :
    minimax board d isMax aiMark =
      if isMax then
        (List.range 9).foldl (fun best i =>
          if board[i]? = some none then
            Score.max best (minimax (board.set i (some aiMark)) (d + 1) false aiMark)
          else best) Score.negInf
      else
        (List.range 9).foldl (fun best i =>
          if board[i]? = some none then
            Score.min best (minimax (board.set i (some aiMark.other)) (d + 1) true aiMark)
          else best) Score.posInf := by
  rw [minimax_eq, h, if_neg (by simp), if_neg (by simp), if_neg (by simp), opponentOf_eq_other]

theorem checkWin_cases (board : Board) (aiMark : Mark) :
    checkWin board = some (Result.mark aiMark) ∨ checkWin board = some (Result.mark aiMark.other) ∨
      checkWin board = some Result.draw ∨ checkWin board = none := by
  cases hc : checkWin board with
  | none => simp
  | some r =>
    cases r with
    | draw => simp
    | mark m =>
      rcases Mark.eq_or_eq_other aiMark m with rfl | rfl <;> simp

/-- On a 9-cell board `minimax` returns an integer, never an infinity. -/
theorem minimax_fin (board : Board) (hb : board.length = 9) (d : Int) (isMax : Bool)
    (aiMark : Mark) : ∃ v : Int, minimax board d isMax aiMark = Score.fin v := by
  generalize hn : (emptyCells board).length = n
  induction n generalizing board d isMax with
  | zero =>
    rcases checkWin_cases board aiMark with h | h | h | h
    · exact ⟨_, (minimax_terminal board d isMax aiMark).1 h⟩
    · exact ⟨_, (minimax_terminal board d isMax aiMark).2.1 h⟩
    · exact ⟨_, (minimax_terminal board d isMax aiMark).2.2 h⟩
    · obtain ⟨i, hi, hc⟩ := exists_empty_of_checkWin_none board hb h
      have := List.length_pos_of_mem ((mem_emptyCells board i).mpr ⟨hi, hc⟩)
      omega
  | succ k ih =>
    rcases checkWin_cases board aiMark with h | h | h | h
    · exact ⟨_, (minimax_terminal board d isMax aiMark).1 h⟩
    · exact ⟨_, (minimax_terminal board d isMax aiMark).2.1 h⟩
    · exact ⟨_, (minimax_terminal board d isMax aiMark).2.2 h⟩
    · obtain ⟨i0, hi0, hc0⟩ := exists_empty_of_checkWin_none board hb h
      have child : ∀ i m b, i < 9 → board[i]? = some none →
          ∃ v : Int, minimax (board.set i (some m)) (d + 1) b aiMark = Score.fin v := by
        intro i m b hi hc
        apply ih
        · simp [hb]
        · have := emptyCells_set_length board i m hi hc
          omega
      rw [minimax_nonterminal board d isMax aiMark h]
      cases isMax with
      | true =>
        simp only [if_true]
        obtain ⟨_, h2, h3⟩ := foldl_max_spec (fun i => board[i]? = some none)
          (fun i => minimax (board.set i (some aiMark)) (d + 1) false aiMark)
          (List.range 9) Score.negInf
        rcases h3 with h3 | ⟨i, hi, hpi, hfi⟩
        · have hle := h2 i0 (List.mem_range.mpr hi0) hc0
          rw [h3] at hle
          obtain ⟨v, hv⟩ := child i0 aiMark false hi0 hc0
          rw [hv] at hle
          simp [Score.le] at hle
        · obtain ⟨v, hv⟩ := child i aiMark false (List.mem_range.mp hi) hpi
          exact ⟨v, by rw [← hfi, hv]⟩
      | false =>
        simp only [Bool.false_eq_true, if_false]
        obtain ⟨_, h2, h3⟩ := foldl_min_spec (fun i => board[i]? = some none)
          (fun i => minimax (board.set i (some aiMark.other)) (d + 1) true aiMark)
          (List.range 9) Score.posInf
        rcases h3 with h3 | ⟨i, hi, hpi, hfi⟩
        · have hle := h2 i0 (List.mem_range.mpr hi0) hc0
          rw [h3] at hle
          obtain ⟨v, hv⟩ := child i0 aiMark.other true hi0 hc0
          rw [hv] at hle
          simp [Score.le] at hle
        · obtain ⟨v, hv⟩ := child i aiMark.other true (List.mem_range.mp hi) hpi
          exact ⟨v, by rw [← hfi, hv]⟩

/-- C3. On a 9-cell board `minimax` is the reference minimax value: `10 - d` when the
searching mark has won, `d - 10` when the other mark has won, `0` on a draw; on an
unfinished board it is an integer that is attained by some empty cell and that bounds
the value of every empty cell (from above when maximising, placing the searching mark;
from below when minimising, placing the other mark), each child being searched one ply
deeper with the flag flipped: every empty cell is visited, at any depth. -/
theorem minimax_spec (board : Board) (hb : board.length = 9) (d : Int) (isMax : Bool)
    (aiMark : Mark) :
    (checkWin board = some (Result.mark aiMark) →
      minimax board d isMax aiMark = Score.fin (10 - d)) ∧
    (checkWin board = some (Result.mark aiMark.other) →
      minimax board d isMax aiMark = Score.fin (d - 10)) ∧
    (checkWin board = some Result.draw → minimax board d isMax aiMark = Score.fin 0) ∧
    (checkWin board = none →
      (∃ v : Int, minimax board d isMax aiMark = Score.fin v) ∧
      (∃ i, i < 9 ∧ board[i]? = some none ∧
        minimax (board.set i (some (if isMax then aiMark else aiMark.other))) (d + 1)
          (!isMax) aiMark = minimax board d isMax aiMark) ∧
      (∀ i, i < 9 → board[i]? = some none →
        if isMax then
          Score.le (minimax (board.set i (some aiMark)) (d + 1) false aiMark)
            (minimax board d isMax aiMark) = true
        else
          Score.le (minimax board d isMax aiMark)
            (minimax (board.set i (some aiMark.other)) (d + 1) true aiMark) = true)) := by
  obtain ⟨t1, t2, t3⟩ := minimax_terminal board d isMax aiMark
  refine ⟨t1, t2, t3, ?_⟩
  intro h
  obtain ⟨v, hv⟩ := minimax_fin board hb d isMax aiMark
  refine ⟨⟨v, hv⟩, ?_⟩
  obtain ⟨i0, hi0, hc0⟩ := exists_empty_of_checkWin_none board hb h
  have hnt := minimax_nonterminal board d isMax aiMark h
  cases isMax with
  | true =>
    simp only [if_true] at hnt ⊢
    obtain ⟨_, h2, h3⟩ := foldl_max_spec (fun i => board[i]? = some none)
      (fun i => minimax (board.set i (some aiMark)) (d + 1) false aiMark)
      (List.range 9) Score.negInf
    rw [← hnt] at h2 h3
    constructor
    · rcases h3 with h3 | ⟨i, hi, hpi, hfi⟩
      · rw [hv] at h3; cases h3
      · exact ⟨i, List.mem_range.mp hi, hpi, by simpa using hfi⟩
    · intro i hi hc
      exact h2 i (List.mem_range.mpr hi) hc
  | false =>
    simp only [Bool.false_eq_true, if_false] at hnt ⊢
    obtain ⟨_, h2, h3⟩ := foldl_min_spec (fun i => board[i]? = some none)
      (fun i => minimax (board.set i (some aiMark.other)) (d + 1) true aiMark)
      (List.range 9) Score.posInf
    rw [← hnt] at h2 h3
    constructor
    · rcases h3 with h3 | ⟨i, hi, hpi, hfi⟩
      · rw [hv] at h3; cases h3
      · exact ⟨i, List.mem_range.mp hi, hpi, by simpa using hfi⟩
    · intro i hi hc
      exact h2 i (List.mem_range.mpr hi) hc

/-- Witness for C3: on `[X,X,X,O,O,null,null,null,null]` the search for `X` at depth 0
returns `10`. -/
theorem minimax_spec_witness : minimax knownTerminal 0 true Mark.X = Score.fin 10 :=
  (minimax_spec knownTerminal rfl 0 true Mark.X).1 (by decide)

/-- The loop of `getBestMoves` over any list of candidates with any scoring function:
the final score bounds every candidate's score, the final moves are the candidates
whose score is the final score, in the order visited, and on a non-empty list the
final score is the score of a candidate. -/
theorem bestLoop_spec (g : Nat → Score) (l : List Nat) :
    let r := l.foldl (fun (acc : BestMoves) i =>
      if Score.gt (g i) acc.score then { moves := [i], score := g i }
      else if g i = acc.score then { moves := acc.moves ++ [i], score := acc.score }
      else acc) { moves := [], score := Score.negInf }
    (∀ i ∈ l, Score.le (g i) r.score = true) ∧ r.moves = l.filter (fun i => g i = r.score) ∧
      (l = [] → r.score = Score.negInf) ∧ (l ≠ [] → ∃ i ∈ l, g i = r.score) := by
  induction l using List.reverseRecOn with
  | nil => simp
  | append_singleton l a ih =>
    simp only [List.foldl_append, List.foldl_cons, List.foldl_nil]
    generalize l.foldl (fun (acc : BestMoves) i =>
      if Score.gt (g i) acc.score then { moves := [i], score := g i }
      else if g i = acc.score then { moves := acc.moves ++ [i], score := acc.score }
      else acc) { moves := [], score := Score.negInf } = acc at ih
    obtain ⟨h1, h2, h3, h4⟩ := ih
    by_cases hgt : Score.gt (g a) acc.score = true
    · simp only [hgt, if_true]
      have hlt : Score.le (g a) acc.score = false := by
        simpa [Score.gt] using hgt
      have hle : Score.le acc.score (g a) = true := by
        rcases Score.le_total acc.score (g a) with h | h
        · exact h
        · rw [hlt] at h; cases h
      refine ⟨?_, ?_, by simp, fun _ => ⟨a, by simp, rfl⟩⟩
      · intro i hi
        rcases List.mem_append.mp hi with hi | hi
        · exact Score.le_trans (h1 i hi) hle
        · rw [List.mem_singleton.mp hi]; exact Score.le_refl _
      · rw [List.filter_append]
        have : l.filter (fun i => decide (g i = g a)) = [] := by
          rw [List.filter_eq_nil_iff]
          intro i hi
          have := h1 i hi
          intro hc
          rw [of_decide_eq_true hc, hlt] at this
          cases this
        simp [this]
    · have hgt' : Score.gt (g a) acc.score = false := by simpa using hgt
      simp only [hgt', Bool.false_eq_true, if_false]
      have hle : Score.le (g a) acc.score = true := by
        simpa [Score.gt] using hgt
      by_cases heq : g a = acc.score
      · simp only [heq, if_true]
        refine ⟨?_, ?_, by simp, fun _ => ⟨a, by simp, heq⟩⟩
        · intro i hi
          rcases List.mem_append.mp hi with hi | hi
          · exact h1 i hi
          · rw [List.mem_singleton.mp hi, heq]; exact Score.le_refl _
        · rw [List.filter_append, h2]
          simp [heq]
      · simp only [heq, if_false]
        refine ⟨?_, ?_, by simp, ?_⟩
        · intro i hi
          rcases List.mem_append.mp hi with hi | hi
          · exact h1 i hi
          · rw [List.mem_singleton.mp hi]; exact hle
        · rw [List.filter_append, h2]
          simp [heq]
        · intro _
          have hl : l ≠ [] := by
            intro hl
            have := h3 hl
            rw [this] at hle
            apply heq
            rw [this]
            cases hg : g a <;> simp [hg, Score.le] at hle ⊢
          obtain ⟨i, hi, hgi⟩ := h4 hl
          exact ⟨i, List.mem_append_left _ hi, hgi⟩

/-- The result of `getBestMoves` in terms of the scores of the empty cells. -/
theorem getBestMoves_char (board : Board) (mark : Mark) :
    (∀ i, i ∈ (getBestMoves board mark).moves ↔
      (i < 9 ∧ board[i]? = some none) ∧
        minimax (board.set i (some mark)) 0 false mark = (getBestMoves board mark).score) ∧
    (getBestMoves board mark).moves.Sorted (· < ·) ∧
    (∀ i, i < 9 → board[i]? = some none →
      Score.le (minimax (board.set i (some mark)) 0 false mark)
        (getBestMoves board mark).score = true) ∧
    ((∃ i, i < 9 ∧ board[i]? = some none) →
      ∃ i, (i < 9 ∧ board[i]? = some none) ∧
        minimax (board.set i (some mark)) 0 false mark = (getBestMoves board mark).score) := by
  obtain ⟨h1, h2, _, h4⟩ := bestLoop_spec
    (fun i => minimax (board.set i (some mark)) 0 false mark) (emptyCells board)
  have hdef : getBestMoves board mark = (emptyCells board).foldl (fun (acc : BestMoves) i =>
      if Score.gt (minimax (board.set i (some mark)) 0 false mark) acc.score then
        { moves := [i], score := minimax (board.set i (some mark)) 0 false mark }
      else if minimax (board.set i (some mark)) 0 false mark = acc.score then
        { moves := acc.moves ++ [i], score := acc.score }
      else acc) { moves := [], score := Score.negInf } := rfl
  rw [← hdef] at h1 h2 h4
  refine ⟨?_, ?_, ?_, ?_⟩
  · intro i
    rw [h2, List.mem_filter, mem_emptyCells]
    simp
  · rw [h2]
    exact (emptyCells_sorted board).filter _
  · intro i hi hc
    exact h1 i ((mem_emptyCells board i).mpr ⟨hi, hc⟩)
  · rintro ⟨i, hi, hc⟩
    have hne : emptyCells board ≠ [] :=
      List.ne_nil_of_mem ((mem_emptyCells board i).mpr ⟨hi, hc⟩)
    obtain ⟨j, hj, hgj⟩ := h4 hne
    exact ⟨j, (mem_emptyCells board j).mp hj, hgj⟩

/-- C2. `getBestMoves(board, mark)` returns as `moves` exactly the empty cells whose
score `minimax(board with mark at i, 0, false, mark)` equals the returned `score`, each
once and in ascending order, and `score` is the maximum of that score over the empty
cells: it bounds every empty cell's score and is attained whenever there is an empty
cell. -/
theorem getBestMoves_spec (board : Board) (mark : Mark) :
    (∀ i, i ∈ (getBestMoves board mark).moves ↔
      (i < 9 ∧ board[i]? = some none) ∧
        minimax (board.set i (some mark)) 0 false mark = (getBestMoves board mark).score) ∧
    (getBestMoves board mark).moves.Sorted (· < ·) ∧
    (∀ i, i < 9 → board[i]? = some none →
      Score.le (minimax (board.set i (some mark)) 0 false mark)
        (getBestMoves board mark).score = true) ∧
    ((∃ i, i < 9 ∧ board[i]? = some none) →
      ∃ i, (i < 9 ∧ board[i]? = some none) ∧
        minimax (board.set i (some mark)) 0 false mark = (getBestMoves board mark).score) :=
  getBestMoves_char board mark

/-- On an unfinished 9-cell board the move set is non-empty and the score is an integer. -/
theorem getBestMoves_nonempty_aux (board : Board) (hb : board.length = 9)
    (h : checkWin board = none) (mark : Mark) :
    (getBestMoves board mark).moves ≠ [] ∧
      ∃ v : Int, (getBestMoves board mark).score = Score.fin v := by
  obtain ⟨h1, _, _, h4⟩ := getBestMoves_char board mark
  obtain ⟨i, hi, hs⟩ := h4 (exists_empty_of_checkWin_none board hb h)
  constructor
  · exact List.ne_nil_of_mem ((h1 i).mpr ⟨hi, hs⟩)
  · obtain ⟨v, hv⟩ := minimax_fin (board.set i (some mark)) (by simp [hb]) 0 false mark
    exact ⟨v, by rw [← hs, hv]⟩

/-- C5. For every unfinished 9-cell board and both marks, `getBestMoves` returns a
non-empty `moves` and an integer `score` (never the initial `-Infinity`). -/
theorem getBestMoves_nonempty (board : Board) (hb : board.length = 9)
    (h : checkWin board = none) (mark : Mark) :
    (getBestMoves board mark).moves ≠ [] ∧
      ∃ v : Int, (getBestMoves board mark).score = Score.fin v :=
  getBestMoves_nonempty_aux board hb h mark

/-- Witness for C5: the empty board, mark `X`. -/
theorem getBestMoves_nonempty_witness :
    (getBestMoves emptyBoard Mark.X).moves ≠ [] ∧
      ∃ v : Int, (getBestMoves emptyBoard Mark.X).score = Score.fin v :=
  getBestMoves_nonempty emptyBoard rfl (by decide) Mark.X

theorem getElem?_ne_null_of_ge (board : Board) (index : Nat) (hb : board.length = 9)
    (h : 9 ≤ index) : board[index]? ≠ some none := by
  rw [List.getElem?_eq_none (by omega)]
  simp

/-- C7. Malformed local input is a no-op: a click while the game is inactive, on an
index outside `0..8`, on an occupied cell, or (standard mode) out of turn returns the
game state unchanged with no timer and no write; `commitMove` on an occupied or
out-of-range cell returns the game state unchanged as well. -/
theorem malformed_input_noop (s : GameState) (index : Nat) (hb : s.board.length = 9) :
    ((s.isActive = false ∨ 9 ≤ index ∨ (∃ m, s.board[index]? = some (some m)) ∨
        (s.mode = Mode.standard ∧ s.currentPlayer ≠ some s.playerMark)) →
      handleCellClick s index = (s, [])) ∧
    (∀ mark, (9 ≤ index ∨ ∃ m, s.board[index]? = some (some m)) →
      commitMove s index mark = (s, [])) := by
  constructor
  · rintro (h | h | ⟨m, h⟩ | ⟨h1, h2⟩)
    · simp [handleCellClick, h]
    · have := getElem?_ne_null_of_ge s.board index hb h
      simp [handleCellClick, this]
    · simp [handleCellClick, h]
    · unfold handleCellClick
      split
      · rfl
      · rw [if_pos ⟨h1, h2⟩]
  · rintro mark (h | ⟨m, h⟩)
    · have := getElem?_ne_null_of_ge s.board index hb h
      simp [commitMove, this]
    · simp [commitMove, h]

/-- Witness for C7: a click on the occupied cell 0 changes nothing. -/
theorem malformed_input_noop_witness : handleCellClick occupiedState 0 = (occupiedState, []) :=
  (malformed_input_noop occupiedState 0 rfl).1 (Or.inr (Or.inr (Or.inl ⟨Mark.X, rfl⟩)))

/-- C8. The fields written by `mpSendMove(index)` on an empty cell: `board` is the cached
board with the client's mark at `index` and every other cell as before; when `checkWin`
of that board is `null`, `currentPlayer` is the other mark and `winner` is `null`; when
it is a result `r`, `currentPlayer` is `null` and `winner` is `r`; a non-terminal move of
the `X` client sets the document's turn to `O`; and the merge-write leaves `playerX`,
`playerO` and `createdAt` as they were. -/
theorem mpSendMove_spec (s : GameState) (index : Nat) (doc : Doc)
    (h : s.board[index]? = some none) :
    ((mpSendMove s index).board.length = s.board.length ∧
      ∀ j, (mpSendMove s index).board[j]? =
        if j = index then some (some s.playerMark) else s.board[j]?) ∧
    (checkWin (mpSendMove s index).board = none →
      (mpSendMove s index).currentPlayer = some s.playerMark.other ∧
        (mpSendMove s index).winner = none) ∧
    (∀ r, checkWin (mpSendMove s index).board = some r →
      (mpSendMove s index).currentPlayer = none ∧ (mpSendMove s index).winner = some r) ∧
    (s.playerMark = Mark.X → checkWin (mpSendMove s index).board = none →
      (mergeWrite doc (mpSendMove s index)).currentPlayer = some Mark.O) ∧
    ((mergeWrite doc (mpSendMove s index)).board = (mpSendMove s index).board ∧
      (mergeWrite doc (mpSendMove s index)).currentPlayer = (mpSendMove s index).currentPlayer ∧
      (mergeWrite doc (mpSendMove s index)).winner = (mpSendMove s index).winner ∧
      (mergeWrite doc (mpSendMove s index)).playerX = doc.playerX ∧
      (mergeWrite doc (mpSendMove s index)).playerO = doc.playerO ∧
      (mergeWrite doc (mpSendMove s index)).createdAt = doc.createdAt) := by
  have hlen : index < s.board.length := by
    rcases Nat.lt_or_ge index s.board.length with hl | hl
    · exact hl
    · rw [List.getElem?_eq_none hl] at h; cases h
  have hboard : (mpSendMove s index).board = s.board.set index (some s.playerMark) := rfl
  have hother : (if s.playerMark = Mark.X then Mark.O else Mark.X) = s.playerMark.other := by
    cases s.playerMark <;> rfl
  refine ⟨⟨by simp [hboard], ?_⟩, ?_, ?_, ?_, rfl, rfl, rfl, rfl, rfl, rfl⟩
  · intro j
    rw [hboard]
    by_cases hj : j = index
    · subst hj
      simp [List.getElem?_set_self hlen]
    · have hne : index ≠ j := fun e => hj e.symm
      simp [List.getElem?_set_ne hne, hj]
  · intro hw
    rw [hboard] at hw
    simp [mpSendMove, hw, hother]
  · intro r hw
    rw [hboard] at hw
    simp [mpSendMove, hw]
  · intro hx hw
    rw [hboard] at hw
    rw [hx] at hw
    simp [mergeWrite, mpSendMove, hw, hx]

/-- Witness for C8: the host `X` plays the centre of the empty board; the document's
turn becomes `O`. -/
theorem mpSendMove_spec_witness :
    (mergeWrite freshDoc (mpSendMove hostState 4)).currentPlayer = some Mark.O :=
  (mpSendMove_spec hostState 4 freshDoc rfl).2.2.2.1 rfl (by decide)

/-- C9. Multiplayer turn guard: when the cached turn is not this client's mark (also
when it is `null`), a click on any index returns the cached state unchanged and issues
no write. -/
theorem mp_turn_guard (s : GameState) (index : Nat) (hm : s.mode = Mode.multiplayer)
    (ht : s.currentPlayer ≠ some s.playerMark) : handleCellClick s index = (s, []) := by
  unfold handleCellClick
  split
  · rfl
  · simp [hm, ht]

/-- Witness for C9: the joiner `O` clicks the centre while its cache shows turn `X`. -/
theorem mp_turn_guard_witness : handleCellClick joinerState 4 = (joinerState, []) :=
  mp_turn_guard joinerState 4 rfl (by decide)

/-- C10, as stated, fails: a client whose `gameState.winner` is still `'X'` from a
finished local game receives the fresh document, whose winner is `null`, and keeps
`'X'` as its local winner. -/
theorem onSnapshot_winner_counterexample :
    freshDoc.winner = none ∧
      (onSnapshot staleWinnerState freshDoc).winner = some (Result.mark Mark.X) := by
  decide

/-- C10, amended. The handler overwrites the cached board and turn with the document's,
whatever they were; when the document has a winner the local winner becomes that winner
and the game becomes inactive; when it has none, the local winner and the active flag
are left as they were; no other field changes. -/
theorem onSnapshot_spec (s : GameState) (d : Doc) :
    (onSnapshot s d).board = d.board ∧ (onSnapshot s d).currentPlayer = d.currentPlayer ∧
    (∀ w, d.winner = some w →
      (onSnapshot s d).winner = some w ∧ (onSnapshot s d).isActive = false) ∧
    (d.winner = none →
      (onSnapshot s d).winner = s.winner ∧ (onSnapshot s d).isActive = s.isActive) ∧
    (onSnapshot s d).mode = s.mode ∧ (onSnapshot s d).playerMark = s.playerMark ∧
    (onSnapshot s d).mpId = s.mpId := by
  unfold onSnapshot
  cases hw : d.winner with
  | none => simp [hw]
  | some w => simp [hw, endGame]

theorem learnState_bestMoves :
    (getBestMoves learnState.board learnState.playerMark).moves = [2] := by
  decide!

theorem head?_mem_le_of_sorted (l : List Nat) (hs : l.Sorted (· < ·)) (c : Nat)
    (hc : l.head? = some c) : c ∈ l ∧ ∀ j ∈ l, c ≤ j := by
  cases l with
  | nil => cases hc
  | cons a t =>
    simp only [List.head?_cons, Option.some.injEq] at hc
    subst hc
    refine ⟨List.mem_cons_self _ _, ?_⟩
    intro j hj
    rcases List.mem_cons.mp hj with rfl | hj
    · exact Nat.le_refl _
    · exact Nat.le_of_lt (List.rel_of_sorted_cons hs j hj)

theorem commitMove_empty (s : GameState) (index : Nat) (player : Mark)
    (he : s.board[index]? = some none) :
    (commitMove s index player).1.board = s.board.set index (some player) ∧
    ((commitMove s index player).1.isActive = true ↔
      (s.isActive = true ∧ checkWin (s.board.set index (some player)) = none)) ∧
    (∀ r, checkWin (s.board.set index (some player)) = some r →
      (commitMove s index player).1.winner = some r ∧
        (commitMove s index player).1.isActive = false) := by
  unfold commitMove
  simp only [he, ne_eq, not_true_eq_false, if_false]
  cases hw : checkWin (s.board.set index (some player)) with
  | some r => simp [endGame]
  | none =>
    simp only []
    split <;> split <;> simp

/-- What a learning-mode click on an empty cell does, and what the correction does. -/
theorem coaching_policy_aux (s : GameState) (index : Nat) (hb : s.board.length = 9)
    (hm : s.mode = Mode.learning) (ha : s.isActive = true)
    (he : s.board[index]? = some none) :
    (index ∈ (getBestMoves s.board s.playerMark).moves →
      handleCellClick s index = commitMove s index s.playerMark ∧
      (handleCellClick s index).1.board = s.board.set index (some s.playerMark) ∧
      (handleCellClick s index).1.board[index]? = some (some s.playerMark)) ∧
    (index ∉ (getBestMoves s.board s.playerMark).moves →
      ∃ c, (getBestMoves s.board s.playerMark).moves.head? = some c ∧
        c ∈ (getBestMoves s.board s.playerMark).moves ∧
        (∀ j ∈ (getBestMoves s.board s.playerMark).moves, c ≤ j) ∧
        handleCellClick s index = ({ s with isActive := false }, [Effect.scheduleCorrection c]) ∧
        (correctionFire (handleCellClick s index).1 c).1.board =
          s.board.set c (some s.playerMark) ∧
        (correctionFire (handleCellClick s index).1 c).1.board[c]? = some (some s.playerMark) ∧
        ((correctionFire (handleCellClick s index).1 c).1.isActive = true ↔
          checkWin (s.board.set c (some s.playerMark)) = none) ∧
        (∀ r, checkWin (s.board.set c (some s.playerMark)) = some r →
          (correctionFire (handleCellClick s index).1 c).1.winner = some r ∧
            (correctionFire (handleCellClick s index).1 c).1.isActive = false)) := by
  have hlen : ∀ i, s.board[i]? = some none → i < s.board.length := by
    intro i hi
    rcases Nat.lt_or_ge i s.board.length with hl | hl
    · exact hl
    · rw [List.getElem?_eq_none hl] at hi; cases hi
  have hclick : handleCellClick s index =
      if !(getBestMoves s.board s.playerMark).moves.contains index then
        highlightMistake s index (getBestMoves s.board s.playerMark).moves.head?
      else commitMove s index s.playerMark := by
    unfold handleCellClick
    simp [ha, he, hm]
  obtain ⟨h1, h2, _, _⟩ := getBestMoves_char s.board s.playerMark
  constructor
  · intro hin
    have hc : (getBestMoves s.board s.playerMark).moves.contains index = true := by
      simpa using hin
    have e : handleCellClick s index = commitMove s index s.playerMark := by
      rw [hclick, hc]; rfl
    have hcm := commitMove_empty s index s.playerMark he
    refine ⟨e, by rw [e]; exact hcm.1, ?_⟩
    rw [e, hcm.1, List.getElem?_set_self (hlen index he)]
  · intro hnot
    have hc : (getBestMoves s.board s.playerMark).moves.contains index = false := by
      simpa using hnot
    have hne : (getBestMoves s.board s.playerMark).moves ≠ [] := by
      have hw : checkWin s.board = none ∨ True := Or.inr trivial
      have hidx : index < 9 := by have := hlen index he; omega
      obtain ⟨_, _, _, h4⟩ := getBestMoves_char s.board s.playerMark
      obtain ⟨i, hi, hs⟩ := h4 ⟨index, hidx, he⟩
      exact List.ne_nil_of_mem ((h1 i).mpr ⟨hi, hs⟩)
    obtain ⟨c, hcs⟩ : ∃ c, (getBestMoves s.board s.playerMark).moves.head? = some c := by
      cases hl : (getBestMoves s.board s.playerMark).moves with
      | nil => exact absurd hl hne
      | cons a t => exact ⟨a, rfl⟩
    obtain ⟨hcm, hcle⟩ := head?_mem_le_of_sorted _ h2 c hcs
    have hcempty : s.board[c]? = some none := ((h1 c).mp hcm).1.2
    have e : handleCellClick s index =
        ({ s with isActive := false }, [Effect.scheduleCorrection c]) := by
      rw [hclick, hc, hcs]; rfl
    have hfire : correctionFire (handleCellClick s index).1 c =
        commitMove { s with isActive := true } c s.playerMark := by
      rw [e]; rfl
    have hcm2 := commitMove_empty { s with isActive := true } c s.playerMark hcempty
    refine ⟨c, hcs, hcm, hcle, e, ?_, ?_, ?_, ?_⟩
    · rw [hfire]; exact hcm2.1
    · rw [hfire, hcm2.1]
      exact List.getElem?_set_self (hlen c hcempty)
    · rw [hfire, hcm2.2.1]
      simp
    · intro r hr
      rw [hfire]
      exact hcm2.2.2 r hr

/-- C6, as stated, fails: in `learnState` the only best move is cell 2, a click on the
empty cell 5 is a mistake, and the correction that places `X` on cell 2 completes the
row 0-1-2, so the game ends and input is not active afterwards. -/
theorem coaching_reactivation_counterexample :
    learnState.board.length = 9 ∧ learnState.mode = Mode.learning ∧
      learnState.isActive = true ∧ learnState.board[5]? = some none ∧
      5 ∉ (getBestMoves learnState.board learnState.playerMark).moves ∧
      (getBestMoves learnState.board learnState.playerMark).moves.head? = some 2 ∧
      (correctionFire (handleCellClick learnState 5).1 2).1.isActive = false := by
  have hM := learnState_bestMoves
  have hclick : handleCellClick learnState 5 =
      ({ learnState with isActive := false }, [Effect.scheduleCorrection 2]) := by
    unfold handleCellClick
    rw [hM]
    decide
  refine ⟨rfl, rfl, rfl, rfl, by rw [hM]; decide, by rw [hM]; rfl, ?_⟩
  rw [hclick]
  decide

/-- C6, amended. In an active learning-mode game on a 9-cell board, a click on an empty
cell that is in `M = getBestMoves(board, playerMark).moves` is committed at once with
the human's mark; a click on an empty cell that is not in `M` leaves the board as it
is, sets `isActive` to false and schedules the correction for `M[0]`, the smallest
member of `M`; the correction places the human's mark at `M[0]`, and afterwards input
is active exactly when that move does not finish the game: when it does, the winner is
recorded and the game stays inactive. -/
theorem coaching_policy (s : GameState) (index : Nat) (hb : s.board.length = 9)
    (hm : s.mode = Mode.learning) (ha : s.isActive = true)
    (he : s.board[index]? = some none) :
    (index ∈ (getBestMoves s.board s.playerMark).moves →
      handleCellClick s index = commitMove s index s.playerMark ∧
      (handleCellClick s index).1.board = s.board.set index (some s.playerMark) ∧
      (handleCellClick s index).1.board[index]? = some (some s.playerMark)) ∧
    (index ∉ (getBestMoves s.board s.playerMark).moves →
      ∃ c, (getBestMoves s.board s.playerMark).moves.head? = some c ∧
        c ∈ (getBestMoves s.board s.playerMark).moves ∧
        (∀ j ∈ (getBestMoves s.board s.playerMark).moves, c ≤ j) ∧
        handleCellClick s index = ({ s with isActive := false }, [Effect.scheduleCorrection c]) ∧
        (correctionFire (handleCellClick s index).1 c).1.board =
          s.board.set c (some s.playerMark) ∧
        (correctionFire (handleCellClick s index).1 c).1.board[c]? = some (some s.playerMark) ∧
        ((correctionFire (handleCellClick s index).1 c).1.isActive = true ↔
          checkWin (s.board.set c (some s.playerMark)) = none) ∧
        (∀ r, checkWin (s.board.set c (some s.playerMark)) = some r →
          (correctionFire (handleCellClick s index).1 c).1.winner = some r ∧
            (correctionFire (handleCellClick s index).1 c).1.isActive = false)) :=
  coaching_policy_aux s index hb hm ha he

/-- Witness for C6: the click on cell 5 in `learnState` schedules the correction for the
first best move. -/
theorem coaching_policy_witness :
    ∃ c, (getBestMoves learnState.board learnState.playerMark).moves.head? = some c ∧
      handleCellClick learnState 5 =
        ({ learnState with isActive := false }, [Effect.scheduleCorrection c]) :=
  ((coaching_policy learnState 5 rfl rfl rfl rfl).2
    (by rw [learnState_bestMoves]; decide)).imp (fun _ hc => ⟨hc.1, hc.2.2.2.1⟩)

theorem Score.sgn_mono {a b : Score} (h : Score.le a b = true) : a.sgn ≤ b.sgn := by
  cases a <;> cases b <;> simp [Score.le, Score.sgn] at h ⊢ <;> repeat' split <;> omega

theorem Score.sgn_eq_zero {a : Score} (h : a.sgn = 0) : a = Score.fin 0 := by
  cases a with
  | negInf => simp [Score.sgn] at h
  | posInf => simp [Score.sgn] at h
  | fin v =>
    simp only [Score.sgn] at h
    have : v = 0 := by
      split at h
      · omega
      · split at h <;> omega
    rw [this]

/-- Signs of a maximum and of a minimum of opposite-signed scores are opposite. -/
theorem Score.sgn_max_min {a a' b b' : Score} (h : a.sgn = - b.sgn) (h' : a'.sgn = - b'.sgn) :
    (Score.max a a').sgn = - (Score.min b b').sgn := by
  have hmax : (Score.max a a').sgn = a.sgn ∧ a'.sgn ≤ a.sgn ∨
      (Score.max a a').sgn = a'.sgn ∧ a.sgn ≤ a'.sgn := by
    unfold Score.max
    split
    · next hle => right; exact ⟨rfl, Score.sgn_mono hle⟩
    · next hle =>
      left
      refine ⟨rfl, ?_⟩
      rcases Score.le_total a a' with h1 | h1
      · exact absurd h1 hle
      · exact Score.sgn_mono h1
  have hmin : (Score.min b b').sgn = b.sgn ∧ b.sgn ≤ b'.sgn ∨
      (Score.min b b').sgn = b'.sgn ∧ b'.sgn ≤ b.sgn := by
    unfold Score.min
    split
    · next hle => left; exact ⟨rfl, Score.sgn_mono hle⟩
    · next hle =>
      right
      refine ⟨rfl, ?_⟩
      rcases Score.le_total b b' with h1 | h1
      · exact absurd h1 hle
      · exact Score.sgn_mono h1
  omega

/-- The maximising loop over scores and the minimising loop over scores of opposite
sign end with opposite signs. -/
theorem sgn_foldl_max_min (p : Nat → Prop) [DecidablePred p] (f g : Nat → Score)
    (l : List Nat) (init init' : Score) (hi : init.sgn = - init'.sgn)
    (h : ∀ i ∈ l, p i → (f i).sgn = - (g i).sgn) :
    (l.foldl (fun best i => if p i then Score.max best (f i) else best) init).sgn =
      - (l.foldl (fun best i => if p i then Score.min best (g i) else best) init').sgn := by
  induction l generalizing init init' with
  | nil => simpa using hi
  | cons a l ih =>
    simp only [List.foldl_cons]
    by_cases hp : p a
    · simp only [hp, if_true]
      apply ih
      · exact Score.sgn_max_min hi (h a (List.mem_cons_self _ _) hp)
      · exact fun i hi' hpi => h i (List.mem_cons_of_mem _ hi') hpi
    · simp only [hp, if_false]
      exact ih init init' hi (fun i hi' hpi => h i (List.mem_cons_of_mem _ hi') hpi)

/-- Sign symmetry of the search: seen by the other mark with the roles of the two loops
exchanged, a position has the opposite sign, at whatever depths the two searches start,
as long as the depth plus the number of empty cells stays at most 9. -/
theorem sgn_minimax_symm (n : Nat) :
    ∀ (board : Board) (d d' : Int) (isMax : Bool) (m : Mark),
      (emptyCells board).length = n → d + n ≤ 9 → d' + n ≤ 9 →
      (minimax board d isMax m).sgn = - (minimax board d' (!isMax) m.other).sgn := by
  induction n with
  | zero =>
    intro board d d' isMax m hn hd hd'
    rcases checkWin_cases board m with h | h | h | h
    · have h' : checkWin board = some (Result.mark m.other.other) := by
        rw [Mark.other_other]; exact h
      rw [(minimax_terminal board d isMax m).1 h,
        (minimax_terminal board d' (!isMax) m.other).2.1 h']
      simp only [Score.sgn]
      repeat' split <;> omega
    · rw [(minimax_terminal board d isMax m).2.1 h,
        (minimax_terminal board d' (!isMax) m.other).1 h]
      simp only [Score.sgn]
      repeat' split <;> omega
    · rw [(minimax_terminal board d isMax m).2.2 h,
        (minimax_terminal board d' (!isMax) m.other).2.2 h]
      simp [Score.sgn]
    · have hnone : ∀ i ∈ List.range 9, ¬ board[i]? = some none := by
        intro i hi hc
        have := List.length_pos_of_mem
          ((mem_emptyCells board i).mpr ⟨List.mem_range.mp hi, hc⟩)
        omega
      rw [minimax_nonterminal board d isMax m h, minimax_nonterminal board d' (!isMax) m.other h]
      rw [foldl_skip _ _ _ _ hnone, foldl_skip _ _ _ _ hnone, foldl_skip _ _ _ _ hnone,
        foldl_skip _ _ _ _ hnone]
      cases isMax <;> simp [Score.sgn]
  | succ k ih =>
    intro board d d' isMax m hn hd hd'
    rcases checkWin_cases board m with h | h | h | h
    · have h' : checkWin board = some (Result.mark m.other.other) := by
        rw [Mark.other_other]; exact h
      rw [(minimax_terminal board d isMax m).1 h,
        (minimax_terminal board d' (!isMax) m.other).2.1 h']
      simp only [Score.sgn]
      repeat' split <;> omega
    · rw [(minimax_terminal board d isMax m).2.1 h,
        (minimax_terminal board d' (!isMax) m.other).1 h]
      simp only [Score.sgn]
      repeat' split <;> omega
    · rw [(minimax_terminal board d isMax m).2.2 h,
        (minimax_terminal board d' (!isMax) m.other).2.2 h]
      simp [Score.sgn]
    · have hk : ∀ i ∈ List.range 9, board[i]? = some none → ∀ v,
          (emptyCells (board.set i (some v))).length = k := by
        intro i hi hc v
        have := emptyCells_set_length board i v (List.mem_range.mp hi) hc
        omega
      rw [minimax_nonterminal board d isMax m h, minimax_nonterminal board d' (!isMax) m.other h]
      cases isMax with
      | true =>
        simp only [if_true, Bool.not_true, Bool.false_eq_true, if_false, Mark.other_other]
        apply sgn_foldl_max_min
        · simp [Score.sgn]
        · intro i hi hc
          have := ih (board.set i (some m)) (d + 1) (d' + 1) false m (hk i hi hc m)
            (by push_cast at hd ⊢; omega) (by push_cast at hd' ⊢; omega)
          simpa using this
      | false =>
        simp only [if_true, Bool.not_false, Bool.false_eq_true, if_false]
        have key := sgn_foldl_max_min (fun i => board[i]? = some none)
          (fun i => minimax (board.set i (some m.other)) (d' + 1) false m.other)
          (fun i => minimax (board.set i (some m.other)) (d + 1) true m)
          (List.range 9) Score.negInf Score.posInf (by simp [Score.sgn])
          (by
            intro i hi hc
            have := ih (board.set i (some m.other)) (d + 1) (d' + 1) true m (hk i hi hc m.other)
              (by push_cast at hd ⊢; omega) (by push_cast at hd' ⊢; omega)
            simp only [Bool.not_true] at this
            beta_reduce
            omega)
        beta_reduce at key
        omega

theorem holdsDraw_first_X :
    holdsDraw 10 firstMoverStrategy emptyBoard true Mark.X = some [] := by
  decide!

theorem holdsDraw_first_O :
    holdsDraw 10 firstMoverStrategy emptyBoard true Mark.O = some [] := by
  decide!

theorem holdsDraw_second_X :
    holdsDraw 10 secondMoverStrategy emptyBoard false Mark.X = some [] := by
  decide!

theorem holdsDraw_second_O :
    holdsDraw 10 secondMoverStrategy emptyBoard false Mark.O = some [] := by
  decide!

theorem withNine_eq_some (board : Board) (k : Board → Option (List Nat)) (r : List Nat)
    (h : withNine board k = some r) : k board = some r := by
  unfold withNine at h
  split at h
  · exact h
  · cases h

theorem foldl_option_some (step : List Nat → Nat → Option (List Nat)) (l : List Nat)
    (init : Option (List Nat)) (rest : List Nat)
    (h : l.foldl (fun acc i => match acc with
      | none => none
      | some c => step c i) init = some rest) :
    ∀ i ∈ l, ∃ c c', step c i = some c' := by
  induction l generalizing init with
  | nil => intro i hi; cases hi
  | cons a l ih =>
    simp only [List.foldl_cons] at h
    cases init with
    | none =>
      exfalso
      have hnone : ∀ (l : List Nat), l.foldl (fun (acc : Option (List Nat)) i => match acc with
          | none => none
          | some c => step c i) none = none := by
        intro l
        induction l with
        | nil => rfl
        | cons b l ihl => simpa using ihl
      rw [hnone] at h
      cases h
    | some c =>
      simp only [] at h
      intro i hi
      rcases List.mem_cons.mp hi with rfl | hi
      · cases hs : step c i with
        | some c' => exact ⟨c, c', hs⟩
        | none =>
          exfalso
          rw [hs] at h
          have hnone : ∀ (l : List Nat), l.foldl (fun (acc : Option (List Nat)) i => match acc with
              | none => none
              | some c => step c i) none = none := by
            intro l
            induction l with
            | nil => rfl
            | cons b l ihl => simpa using ihl
          rw [hnone] at h
          cases h
      · exact ih _ h i hi

theorem holdsDraw_succ (fuel : Nat) (cert : List Nat) (board : Board) (isMax : Bool)
    (aiMark : Mark) :
    holdsDraw (fuel + 1) cert board isMax aiMark =
      match checkWin board with
      | some (Result.mark w) => if w = aiMark then some cert else none
      | some Result.draw => some cert
      | none =>
        if isMax then
          match cert with
          | [] => none
          | i :: rest =>
            if i < 9 ∧ board[i]? = some none then
              withNine (board.set i (some aiMark)) (fun b => holdsDraw fuel rest b false aiMark)
            else none
        else
          [0, 1, 2, 3, 4, 5, 6, 7, 8].foldl (fun acc i =>
            match acc with
            | none => none
            | some cert' =>
              if board[i]? = some none then
                withNine (board.set i (some aiMark.other))
                  (fun b => holdsDraw fuel cert' b true aiMark)
              else some cert') (some cert) := rfl

/-- Soundness of the strategy checker: a position that passes has a non-negative search
value for `aiMark`, at every depth that leaves room for the remaining empty cells. -/
theorem holdsDraw_sound (fuel : Nat) :
    ∀ (cert : List Nat) (board : Board) (isMax : Bool) (aiMark : Mark) (rest : List Nat),
      holdsDraw fuel cert board isMax aiMark = some rest →
      ∀ d : Int, d + (emptyCells board).length ≤ 9 →
        0 ≤ (minimax board d isMax aiMark).sgn := by
  induction fuel with
  | zero =>
    intro cert board isMax aiMark rest h
    cases h
  | succ fuel ih =>
    intro cert board isMax aiMark rest h d hd
    rw [holdsDraw_succ] at h
    cases hw : checkWin board with
    | some r =>
      cases r with
      | mark w =>
        rw [hw] at h
        simp only [] at h
        by_cases hwa : w = aiMark
        · subst hwa
          rw [(minimax_terminal board d isMax w).1 hw]
          simp only [Score.sgn]
          repeat' split <;> omega
        · simp [hwa] at h
      | draw =>
        rw [(minimax_terminal board d isMax aiMark).2.2 hw]
        simp [Score.sgn]
    | none =>
      rw [hw] at h
      simp only [] at h
      have hchild : ∀ i v, i < 9 → board[i]? = some none →
          (d + 1) + (emptyCells (board.set i (some v))).length ≤ 9 := by
        intro i v hi hc
        have := emptyCells_set_length board i v hi hc
        omega
      rw [minimax_nonterminal board d isMax aiMark hw]
      cases isMax with
      | true =>
        simp only [if_true] at h ⊢
        cases cert with
        | nil => simp at h
        | cons i rest' =>
          simp only [] at h
          split at h
          · next hcond =>
            have hsub := withNine_eq_some _ _ _ h
            have hge := ih rest' _ false aiMark rest hsub (d + 1) (hchild i aiMark hcond.1 hcond.2)
            obtain ⟨_, h2, _⟩ := foldl_max_spec (fun i => board[i]? = some none)
              (fun i => minimax (board.set i (some aiMark)) (d + 1) false aiMark)
              (List.range 9) Score.negInf
            have := Score.sgn_mono (h2 i (List.mem_range.mpr hcond.1) hcond.2)
            omega
          · cases h
      | false =>
        simp only [Bool.false_eq_true, if_false] at h ⊢
        have hall := foldl_option_some
          (fun cert' i => if board[i]? = some none then
            withNine (board.set i (some aiMark.other))
              (fun b => holdsDraw fuel cert' b true aiMark)
            else some cert') [0, 1, 2, 3, 4, 5, 6, 7, 8] (some cert) rest h
        obtain ⟨_, _, h3⟩ := foldl_min_spec (fun i => board[i]? = some none)
          (fun i => minimax (board.set i (some aiMark.other)) (d + 1) true aiMark)
          (List.range 9) Score.posInf
        rcases h3 with h3 | ⟨i, hi, hpi, hfi⟩
        · rw [h3]; simp [Score.sgn]
        · rw [← hfi]
          have hi9 : i < 9 := List.mem_range.mp hi
          have hmem : i ∈ [0, 1, 2, 3, 4, 5, 6, 7, 8] := by
            have : [0, 1, 2, 3, 4, 5, 6, 7, 8] = List.range 9 := by decide
            rw [this]; exact hi
          obtain ⟨c, c', hstep⟩ := hall i hmem
          simp only [hpi, if_true] at hstep
          have hsub := withNine_eq_some _ _ _ hstep
          exact ih c _ true aiMark c' hsub (d + 1) (hchild i aiMark.other hi9 hpi)

theorem emptyCells_length_le (board : Board) : (emptyCells board).length ≤ 9 := by
  unfold emptyCells
  have := List.length_filter_le (fun i => decide (board[i]? = some none)) (List.range 9)
  simpa using this

/-- The empty board is a draw for the side that has just not moved: the search value of
the empty board, minimising first, has sign 0 for either mark. -/
theorem sgn_minimax_emptyBoard (m : Mark) : (minimax emptyBoard 0 false m).sgn = 0 := by
  have he : (emptyCells emptyBoard).length = 9 := by decide
  have hge : 0 ≤ (minimax emptyBoard 0 false m).sgn := by
    cases m with
    | X => exact holdsDraw_sound 10 _ _ _ _ _ holdsDraw_second_X 0 (by rw [he]; decide)
    | O => exact holdsDraw_sound 10 _ _ _ _ _ holdsDraw_second_O 0 (by rw [he]; decide)
  have hsym := sgn_minimax_symm 9 emptyBoard 0 0 false m he (by decide) (by decide)
  have hle : 0 ≤ (minimax emptyBoard 0 true m.other).sgn := by
    cases m with
    | X => exact holdsDraw_sound 10 _ _ _ _ _ holdsDraw_first_O 0 (by rw [he]; decide)
    | O => exact holdsDraw_sound 10 _ _ _ _ _ holdsDraw_first_X 0 (by rw [he]; decide)
  simp only [Bool.not_false] at hsym
  omega

/-- What a drawn position means for the mover `m`: every reply scores at most a draw,
some reply scores a draw, and so does the best score. -/
theorem drawn_position_replies (board : Board) (m : Mark)
    (hinv : (minimax board 0 false m.other).sgn = 0) (hw : checkWin board = none) :
    (∀ j, j < 9 → board[j]? = some none →
      (minimax (board.set j (some m)) 0 false m).sgn ≤ 0) ∧
    (∃ j, j < 9 ∧ board[j]? = some none) ∧
    (getBestMoves board m).score = Score.fin 0 := by
  have hnt := minimax_nonterminal board 0 false m.other hw
  simp only [Bool.false_eq_true, if_false, Mark.other_other] at hnt
  obtain ⟨_, h2, h3⟩ := foldl_min_spec (fun i => board[i]? = some none)
    (fun i => minimax (board.set i (some m)) (0 + 1) true m.other) (List.range 9) Score.posInf
  rw [← hnt] at h2 h3
  have hsymm : ∀ j, j < 9 → board[j]? = some none →
      (minimax (board.set j (some m)) (0 + 1) true m.other).sgn =
        - (minimax (board.set j (some m)) 0 false m).sgn := by
    intro j hj hc
    have hlen := emptyCells_set_length board j m hj hc
    have hle := emptyCells_length_le board
    have := sgn_minimax_symm _ (board.set j (some m)) (0 + 1) 0 true m.other rfl
      (by omega) (by omega)
    simpa [Mark.other_other] using this
  have hall : ∀ j, j < 9 → board[j]? = some none →
      (minimax (board.set j (some m)) 0 false m).sgn ≤ 0 := by
    intro j hj hc
    have h1 := Score.sgn_mono (h2 j (List.mem_range.mpr hj) hc)
    have h2' := hsymm j hj hc
    omega
  obtain ⟨j0, hj0, hc0, hz0⟩ : ∃ j, j < 9 ∧ board[j]? = some none ∧
      (minimax (board.set j (some m)) 0 false m).sgn = 0 := by
    rcases h3 with h3 | ⟨j, hj, hc, hfj⟩
    · rw [h3] at hinv
      simp [Score.sgn] at hinv
    · refine ⟨j, List.mem_range.mp hj, hc, ?_⟩
      have h2' := hsymm j (List.mem_range.mp hj) hc
      have : (minimax (board.set j (some m)) (0 + 1) true m.other).sgn = 0 := by
        have := congrArg Score.sgn hfj
        beta_reduce at this
        omega
      omega
  obtain ⟨_, _, g3, g4⟩ := getBestMoves_char board m
  obtain ⟨j1, ⟨hj1, hc1⟩, hs1⟩ := g4 ⟨j0, hj0, hc0⟩
  have hlow := Score.sgn_mono (g3 j0 hj0 hc0)
  have hup := hall j1 hj1 hc1
  rw [hs1] at hup
  exact ⟨hall, ⟨j0, hj0, hc0⟩, Score.sgn_eq_zero (by omega)⟩

/-- One optimal move keeps the position drawn. -/
theorem optimal_step (board : Board) (m : Mark) (i : Nat)
    (hinv : (minimax board 0 false m.other).sgn = 0) (hw : checkWin board = none)
    (hi : i ∈ (getBestMoves board m).moves) :
    (minimax (board.set i (some m)) 0 false m.other.other).sgn = 0 := by
  obtain ⟨_, _, hscore⟩ := drawn_position_replies board m hinv hw
  obtain ⟨g1, _, _, _⟩ := getBestMoves_char board m
  rw [Mark.other_other, ((g1 i).mp hi).2, hscore]
  simp [Score.sgn]

/-- The invariant of optimal play: after `n` moves `9 - n` cells are empty, the board has
9 cells and the position is drawn. -/
theorem optimalPlay_invariant (n : Nat) (board : Board) (m : Mark)
    (h : OptimalPlay n board m) :
    (minimax board 0 false m.other).sgn = 0 ∧ board.length = 9 ∧
      n + (emptyCells board).length = 9 := by
  induction h with
  | start first => exact ⟨sgn_minimax_emptyBoard first.other, rfl, by decide⟩
  | move hprev hw hi ih =>
    rename_i k b mv idx
    obtain ⟨ih1, ih2, ih3⟩ := ih
    obtain ⟨g1, _, _, _⟩ := getBestMoves_char b mv
    obtain ⟨⟨hidx, hc⟩, _⟩ := (g1 idx).mp hi
    have hlen := emptyCells_set_length b idx mv hidx hc
    exact ⟨optimal_step b mv idx ih1 hw hi, by simp [ih2], by omega⟩

/-- Consequences of the invariant for the outcome of the game. -/
theorem optimalPlay_outcome (n : Nat) (board : Board) (m : Mark)
    (h : OptimalPlay n board m) :
    (∀ w, checkWin board ≠ some (Result.mark w)) ∧
    (checkWin board ≠ none → checkWin board = some Result.draw) ∧
    (checkWin board = none → (getBestMoves board m).moves ≠ []) ∧
    board.length = 9 ∧ n + (emptyCells board).length = 9 := by
  obtain ⟨hinv, hlen, hcount⟩ := optimalPlay_invariant n board m h
  have hnowin : ∀ w, checkWin board ≠ some (Result.mark w) := by
    intro w hw
    rcases Mark.eq_or_eq_other m.other w with rfl | rfl
    · rw [(minimax_terminal board 0 false m.other).1 hw] at hinv
      simp [Score.sgn] at hinv
    · rw [(minimax_terminal board 0 false m.other).2.1 hw] at hinv
      simp [Score.sgn] at hinv
  refine ⟨hnowin, ?_, ?_, hlen, hcount⟩
  · intro hne
    cases hc : checkWin board with
    | none => exact absurd hc hne
    | some r =>
      cases r with
      | draw => rfl
      | mark w => exact absurd hc (hnowin w)
  · intro hw
    obtain ⟨_, ⟨j, hj, hc⟩, _⟩ := drawn_position_replies board m hinv hw
    obtain ⟨g1, _, _, g4⟩ := getBestMoves_char board m
    obtain ⟨j1, hj1, hs1⟩ := g4 ⟨j, hj, hc⟩
    exact List.ne_nil_of_mem ((g1 j1).mpr ⟨hj1, hs1⟩)

/-- The corner move that opens `firstMoverStrategy` is one of the best moves of `X` on
the empty board. -/
theorem corner_mem_bestMoves : 0 ∈ (getBestMoves emptyBoard Mark.X).moves := by
  have hw : checkWin emptyBoard = none := by decide
  obtain ⟨hall, _, hscore⟩ :=
    drawn_position_replies emptyBoard Mark.X (sgn_minimax_emptyBoard Mark.X.other) hw
  have hstep : holdsDraw 10 firstMoverStrategy emptyBoard true Mark.X =
      withNine (emptyBoard.set 0 (some Mark.X))
        (fun b => holdsDraw 9 firstMoverStrategy.tail b false Mark.X) := rfl
  have hsub := withNine_eq_some _ _ _ (hstep ▸ holdsDraw_first_X)
  have hge := holdsDraw_sound 9 _ _ _ _ _ hsub 0 (by decide)
  have hle := hall 0 (by decide) (by decide)
  obtain ⟨g1, _, _, _⟩ := getBestMoves_char emptyBoard Mark.X
  refine (g1 0).mpr ⟨⟨by decide, by decide⟩, ?_⟩
  rw [hscore]
  exact Score.sgn_eq_zero (by omega)

/-- C4. Optimal play from the empty board always ends in a draw: in every position
reached from the empty 9-cell board by alternating marks, each mover choosing a member
of `getBestMoves(board, mover).moves`, no mark has completed a line; once `checkWin` is
non-null it is `'Draw'`; while it is `null` the mover has a best move to continue with;
and after `n` moves exactly `9 - n` cells are empty, so the game ends within 9 moves. -/
theorem optimal_play_draws (n : Nat) (board : Board) (m : Mark)
    (h : OptimalPlay n board m) :
    (∀ w, checkWin board ≠ some (Result.mark w)) ∧
    (checkWin board ≠ none → checkWin board = some Result.draw) ∧
    (checkWin board = none → (getBestMoves board m).moves ≠ []) ∧
    board.length = 9 ∧ n + (emptyCells board).length = 9 :=
  optimalPlay_outcome n board m h

/-- Witness for C4: the position after `X` opens in the corner, `O` to move. -/
theorem optimal_play_draws_witness :
    (∀ w, checkWin (emptyBoard.set 0 (some Mark.X)) ≠ some (Result.mark w)) ∧
    (checkWin (emptyBoard.set 0 (some Mark.X)) ≠ none →
      checkWin (emptyBoard.set 0 (some Mark.X)) = some Result.draw) ∧
    (checkWin (emptyBoard.set 0 (some Mark.X)) = none →
      (getBestMoves (emptyBoard.set 0 (some Mark.X)) Mark.O).moves ≠ []) ∧
    (emptyBoard.set 0 (some Mark.X)).length = 9 ∧
    1 + (emptyCells (emptyBoard.set 0 (some Mark.X))).length = 9 :=
  optimal_play_draws 1 (emptyBoard.set 0 (some Mark.X)) Mark.O
    (OptimalPlay.move (OptimalPlay.start Mark.X) (by decide) corner_mem_bestMoves)

/-- The known terminal position of the specification is a win for `X`. -/
theorem checkWin_knownTerminal : checkWin knownTerminal = some (Result.mark Mark.X) := by
  decide

/-- C12, as stated, fails: `checkWin` does not return `'Draw'` on `[X,O,X,O,X,O,X,O,X]`. -/
theorem checkWin_specDrawBoard_not_draw : checkWin specDrawBoard ≠ some Result.draw := by
  decide

/-- C12, amended. On the full board `[X,O,X,O,X,O,X,O,X]` the diagonals 0-4-8 and 2-4-6
both hold `X` and `checkWin` returns `'X'`; on the full board `[X,O,X,X,O,O,O,X,X]`, which
has no completed line, it returns `'Draw'`. -/
theorem checkWin_specDrawBoard :
    checkWin specDrawBoard = some (Result.mark Mark.X) ∧
    lineFull specDrawBoard (0, 4, 8) Mark.X ∧ lineFull specDrawBoard (2, 4, 6) Mark.X ∧
    none ∉ specDrawBoard ∧
    none ∉ fullNoLineBoard ∧ (∀ p ∈ WIN_PATTERNS, ∀ w, ¬ lineFull fullNoLineBoard p w) ∧
    checkWin fullNoLineBoard = some Result.draw := by
  refine ⟨by decide, ⟨rfl, rfl, rfl⟩, ⟨rfl, rfl, rfl⟩, by decide, by decide, ?_, by decide⟩
  have hf : WIN_PATTERNS.findSome? (lineWinner fullNoLineBoard) = none := by decide
  intro p hp
  exact (lineWinner_eq_none_iff _ _).mp (List.findSome?_eq_none_iff.mp hf p hp)

theorem line_of_checkWin_mark (board : Board) (w : Mark)
    (h : checkWin board = some (Result.mark w)) : ∃ p ∈ WIN_PATTERNS, lineFull board p w := by
  unfold checkWin at h
  split at h
  · next m hm =>
    have : m = w := by
      injection h with h
      injection h
    subst this
    obtain ⟨p, hp, hpm⟩ := List.exists_of_findSome?_eq_some hm
    exact ⟨p, hp, (lineWinner_eq_some_iff _ _ _).mp hpm⟩
  · split at h <;> cases h

theorem checkWin_mark_of_line (board : Board) (p : Nat × Nat × Nat) (hp : p ∈ WIN_PATTERNS)
    (w : Mark) (h : lineFull board p w) : ∃ w', checkWin board = some (Result.mark w') := by
  unfold checkWin
  cases hf : WIN_PATTERNS.findSome? (lineWinner board) with
  | some m => exact ⟨m, rfl⟩
  | none =>
    have := List.findSome?_eq_none_iff.mp hf p hp
    rw [(lineWinner_eq_some_iff _ _ _).mpr h] at this
    cases this

/-- On a board without a completed line, a line completed by placing `m` holds `m`. -/
theorem lineFull_set_mark (board : Board) (hno : noLine board) (i : Nat) (m w : Mark)
    (p : Nat × Nat × Nat) (hp : p ∈ WIN_PATTERNS)
    (h : lineFull (board.set i (some m)) p w) : w = m := by
  obtain ⟨h1, h2, h3⟩ := h
  rw [List.getElem?_set] at h1 h2 h3
  by_cases e1 : i = p.1
  · rw [if_pos e1] at h1
    split at h1
    · injection h1 with h1
      injection h1 with h1
      exact h1.symm
    · cases h1
  · rw [if_neg e1] at h1
    by_cases e2 : i = p.2.1
    · rw [if_pos e2] at h2
      split at h2
      · injection h2 with h2
        injection h2 with h2
        exact h2.symm
      · cases h2
    · rw [if_neg e2] at h2
      by_cases e3 : i = p.2.2
      · rw [if_pos e3] at h3
        split at h3
        · injection h3 with h3
          injection h3 with h3
          exact h3.symm
        · cases h3
      · rw [if_neg e3] at h3
        exact absurd ⟨h1, h2, h3⟩ (hno p hp w)

/-- On a board without a completed line, `checkWin` after placing `m` on cell `i` is `m`
exactly when the move completes a line, and is never the other mark. -/
theorem checkWin_set_of_noLine (board : Board) (hno : noLine board) (i : Nat) (m : Mark) :
    (checkWin (board.set i (some m)) = some (Result.mark m) ↔ winsAt board m i) ∧
    checkWin (board.set i (some m)) ≠ some (Result.mark m.other) := by
  constructor
  · constructor
    · intro h
      exact line_of_checkWin_mark _ _ h
    · rintro ⟨p, hp, hl⟩
      obtain ⟨w', hw'⟩ := checkWin_mark_of_line _ p hp m hl
      obtain ⟨q, hq, hlq⟩ := line_of_checkWin_mark _ _ hw'
      rw [hw', lineFull_set_mark board hno i m w' q hq hlq]
  · intro h
    obtain ⟨q, hq, hlq⟩ := line_of_checkWin_mark _ _ h
    exact Mark.other_ne m (lineFull_set_mark board hno i m m.other q hq hlq)

/-- On an unfinished 9-cell board the value of `minimax` is the value of one of its
children. -/
theorem minimax_attained (board : Board) (hb : board.length = 9) (d : Int) (isMax : Bool)
    (aiMark : Mark) (h : checkWin board = none) :
    ∃ i, i < 9 ∧ board[i]? = some none ∧ ∃ v : Mark,
      minimax (board.set i (some v)) (d + 1) (!isMax) aiMark = minimax board d isMax aiMark := by
  obtain ⟨v, hv⟩ := minimax_fin board hb d isMax aiMark
  have hnt := minimax_nonterminal board d isMax aiMark h
  cases isMax with
  | true =>
    simp only [if_true] at hnt
    obtain ⟨_, _, h3⟩ := foldl_max_spec (fun i => board[i]? = some none)
      (fun i => minimax (board.set i (some aiMark)) (d + 1) false aiMark)
      (List.range 9) Score.negInf
    rw [← hnt] at h3
    rcases h3 with h3 | ⟨i, hi, hpi, hfi⟩
    · rw [hv] at h3; cases h3
    · exact ⟨i, List.mem_range.mp hi, hpi, aiMark, hfi⟩
  | false =>
    simp only [Bool.false_eq_true, if_false] at hnt
    obtain ⟨_, _, h3⟩ := foldl_min_spec (fun i => board[i]? = some none)
      (fun i => minimax (board.set i (some aiMark.other)) (d + 1) true aiMark)
      (List.range 9) Score.posInf
    rw [← hnt] at h3
    rcases h3 with h3 | ⟨i, hi, hpi, hfi⟩
    · rw [hv] at h3; cases h3
    · exact ⟨i, List.mem_range.mp hi, hpi, aiMark.other, hfi⟩

/-- At depth `d` no position of a 9-cell board scores more than `10 - d`. -/
theorem minimax_le_bound (n : Nat) :
    ∀ (board : Board) (d : Int) (isMax : Bool) (aiMark : Mark), board.length = 9 →
      (emptyCells board).length = n → d + n ≤ 10 →
      Score.le (minimax board d isMax aiMark) (Score.fin (10 - d)) = true := by
  induction n with
  | zero =>
    intro board d isMax aiMark hb hn hd
    rcases checkWin_cases board aiMark with h | h | h | h
    · rw [(minimax_terminal board d isMax aiMark).1 h]; exact Score.le_refl _
    · rw [(minimax_terminal board d isMax aiMark).2.1 h]
      simp only [Score.le, decide_eq_true_eq]; omega
    · rw [(minimax_terminal board d isMax aiMark).2.2 h]
      simp only [Score.le, decide_eq_true_eq]; omega
    · obtain ⟨i, hi, hc⟩ := exists_empty_of_checkWin_none board hb h
      have := List.length_pos_of_mem ((mem_emptyCells board i).mpr ⟨hi, hc⟩)
      omega
  | succ k ih =>
    intro board d isMax aiMark hb hn hd
    rcases checkWin_cases board aiMark with h | h | h | h
    · rw [(minimax_terminal board d isMax aiMark).1 h]; exact Score.le_refl _
    · rw [(minimax_terminal board d isMax aiMark).2.1 h]
      simp only [Score.le, decide_eq_true_eq]; omega
    · rw [(minimax_terminal board d isMax aiMark).2.2 h]
      simp only [Score.le, decide_eq_true_eq]; omega
    · obtain ⟨i, hi, hc, v, hv⟩ := minimax_attained board hb d isMax aiMark h
      have hlen := emptyCells_set_length board i v hi hc
      have hchild := ih (board.set i (some v)) (d + 1) (!isMax) aiMark (by simp [hb])
        (by omega) (by push_cast at hd ⊢; omega)
      rw [hv] at hchild
      refine Score.le_trans hchild ?_
      simp only [Score.le, decide_eq_true_eq]; omega

/-- Scores of the candidate moves on a 9-cell board without a completed line: a move that
completes a line scores 10, any other move scores at most 9. -/
theorem candidate_scores (board : Board) (hb : board.length = 9) (hno : noLine board)
    (m : Mark) (i : Nat) :
    (winsAt board m i → minimax (board.set i (some m)) 0 false m = Score.fin 10) ∧
    (¬ winsAt board m i →
      Score.le (minimax (board.set i (some m)) 0 false m) (Score.fin 9) = true) := by
  obtain ⟨hiff, hother⟩ := checkWin_set_of_noLine board hno i m
  have hb' : (board.set i (some m)).length = 9 := by simp [hb]
  constructor
  · intro hw
    rw [(minimax_terminal _ 0 false m).1 (hiff.mpr hw)]
    rfl
  · intro hnw
    rcases checkWin_cases (board.set i (some m)) m with h | h | h | h
    · exact absurd (hiff.mp h) hnw
    · exact absurd h hother
    · rw [(minimax_terminal _ 0 false m).2.2 h]
      decide
    · obtain ⟨j, hj, hcj, v, hv⟩ := minimax_attained _ hb' 0 false m h
      have hle := emptyCells_length_le ((board.set i (some m)).set j (some v))
      have hbound := minimax_le_bound _ ((board.set i (some m)).set j (some v)) (0 + 1)
        (!false) m (by simp [hb]) rfl (by omega)
      rw [hv] at hbound
      exact hbound

/-- The result of `getBestMoves` when some empty cell wins at once. -/
theorem immediate_win_aux (board : Board) (hb : board.length = 9) (hno : noLine board)
    (m : Mark) (hex : ∃ i, (i < 9 ∧ board[i]? = some none) ∧ winsAt board m i) :
    (getBestMoves board m).score = Score.fin 10 ∧
    (∀ i, i ∈ (getBestMoves board m).moves ↔
      (i < 9 ∧ board[i]? = some none) ∧ winsAt board m i) ∧
    (∀ i, i < 9 → board[i]? = some none → ¬ winsAt board m i →
      Score.le (minimax (board.set i (some m)) 0 false m) (Score.fin 9) = true) := by
  obtain ⟨g1, _, g3, g4⟩ := getBestMoves_char board m
  obtain ⟨i0, ⟨hi0, hc0⟩, hw0⟩ := hex
  have hN0 := (candidate_scores board hb hno m i0).1 hw0
  have hlow := g3 i0 hi0 hc0
  rw [hN0] at hlow
  have hnine : ∀ s : Score, Score.le (Score.fin 10) s = true →
      Score.le s (Score.fin 9) = true → False := by
    intro s h1 h2
    have := Score.le_trans h1 h2
    simp [Score.le] at this
  have hscore : (getBestMoves board m).score = Score.fin 10 := by
    obtain ⟨j1, ⟨hj1, hc1⟩, hs1⟩ := g4 ⟨i0, hi0, hc0⟩
    by_cases hw1 : winsAt board m j1
    · rw [← hs1]
      exact (candidate_scores board hb hno m j1).1 hw1
    · have := (candidate_scores board hb hno m j1).2 hw1
      rw [hs1] at this
      exact absurd this (fun h => hnine _ hlow h)
  refine ⟨hscore, ?_, ?_⟩
  · intro i
    rw [g1 i, hscore]
    constructor
    · rintro ⟨⟨hi, hc⟩, hN⟩
      refine ⟨⟨hi, hc⟩, ?_⟩
      by_contra hnw
      have := (candidate_scores board hb hno m i).2 hnw
      rw [hN] at this
      simp [Score.le] at this
    · rintro ⟨⟨hi, hc⟩, hw⟩
      exact ⟨⟨hi, hc⟩, (candidate_scores board hb hno m i).1 hw⟩
  · intro i hi hc hnw
    exact (candidate_scores board hb hno m i).2 hnw

/-- C13. The engine always takes an immediate win: on a 9-cell board with no completed
line on which some empty cell completes a win line for `m`, `getBestMoves(board, m)`
returns score 10 and its moves are exactly the empty cells that complete a line for `m`;
every empty cell that does not win on the spot scores at most 9. -/
theorem immediate_win (board : Board) (hb : board.length = 9) (hno : noLine board)
    (m : Mark) (hex : ∃ i, (i < 9 ∧ board[i]? = some none) ∧ winsAt board m i) :
    (getBestMoves board m).score = Score.fin 10 ∧
    (∀ i, i ∈ (getBestMoves board m).moves ↔
      (i < 9 ∧ board[i]? = some none) ∧ winsAt board m i) ∧
    (∀ i, i < 9 → board[i]? = some none → ¬ winsAt board m i →
      Score.le (minimax (board.set i (some m)) 0 false m) (Score.fin 9) = true) :=
  immediate_win_aux board hb hno m hex

theorem learnState_noLine : noLine learnState.board := by
  have hf : WIN_PATTERNS.findSome? (lineWinner learnState.board) = none := by decide
  intro p hp
  exact (lineWinner_eq_none_iff _ _).mp (List.findSome?_eq_none_iff.mp hf p hp)

/-- Witness for C13: on `[X,X,null,O,O,null,null,null,null]` cell 2 completes the row
0-1-2 for `X`, and the score is 10. -/
theorem immediate_win_witness :
    (getBestMoves learnState.board Mark.X).score = Score.fin 10 ∧
      (2 ∈ (getBestMoves learnState.board Mark.X).moves ↔
        (2 < 9 ∧ learnState.board[2]? = some none) ∧ winsAt learnState.board Mark.X 2) :=
  ⟨(immediate_win learnState.board rfl learnState_noLine Mark.X
      ⟨2, ⟨by decide, rfl⟩, (0, 1, 2), by decide, rfl, rfl, rfl⟩).1,
    (immediate_win learnState.board rfl learnState_noLine Mark.X
      ⟨2, ⟨by decide, rfl⟩, (0, 1, 2), by decide, rfl, rfl, rfl⟩).2.1 2⟩

theorem learnStart_click :
    handleCellClick learnStart 0 = (learnAfterFirst, [Effect.scheduleAi]) := by
  have h := (coaching_policy_aux learnStart 0 rfl rfl rfl rfl).1 corner_mem_bestMoves
  rw [h.1]
  decide

theorem learnAfterFirst_reachable :
    LocalReachable Mode.learning (learnAfterFirst, [Effect.scheduleAi]) := by
  have h0 : LocalReachable Mode.learning (learnStart, []) :=
    LocalReachable.start initialState Mark.X Mark.X
  have h1 := LocalReachable.step h0 (LocalStep.click learnStart [] 0)
  rw [learnStart_click] at h1
  exact h1

theorem not_alternates_of_two_zero (board : Board) (hx : markCount board Mark.X = 2)
    (ho : markCount board Mark.O = 0) : ¬ alternates board := by
  rintro ⟨a, h⟩
  cases a <;> simp only [Mark.other] at h <;> omega

theorem second_mark_counts (c : Nat) (hc : c < 9)
    (he : learnAfterFirst.board[c]? = some none) :
    markCount (learnAfterFirst.board.set c (some Mark.X)) Mark.X = 2 ∧
      markCount (learnAfterFirst.board.set c (some Mark.X)) Mark.O = 0 := by
  interval_cases c
  · exact absurd he (by decide)
  all_goals exact ⟨by decide, by decide⟩

theorem commitMove_mode (s : GameState) (index : Nat) (player : Mark) :
    (commitMove s index player).1.mode = s.mode := by
  unfold commitMove
  split
  · rfl
  · simp only []
    split
    · rfl
    · split <;> split <;> rfl

/-- A reachable learning-mode configuration whose board is `learnAfterFirst.board` with a
second `X` on an empty cell breaks the mark-count invariant. -/
theorem double_move_violation (s : GameState) (timers : List Effect)
    (hr : LocalReachable Mode.learning (s, timers))
    (hm : s.mode = Mode.learning) (k : Nat) (hk : k < 9)
    (he : learnAfterFirst.board[k]? = some none)
    (hb : s.board = learnAfterFirst.board.set k (some Mark.X)) :
    ∃ c : LocalConfig, LocalReachable Mode.learning c ∧ c.1.mode = Mode.learning ∧
      markCount c.1.board Mark.X = 2 ∧ markCount c.1.board Mark.O = 0 ∧
      ¬ alternates c.1.board := by
  have hcount := second_mark_counts k hk he
  rw [← hb] at hcount
  exact ⟨(s, timers), hr, hm, hcount.1, hcount.2,
    not_alternates_of_two_zero _ hcount.1 hcount.2⟩

/-- C11 fails on the code in learning mode.  From `startLocalGame('learning')` with the
human as `X` moving first, a click on cell 0 is accepted and places `X`; a second click
on cell 1 before the `aiMove` timer fires is judged against `getBestMoves(board, 'X')`
again, because the turn guard of `handleCellClick` covers standard mode only: if it is
accepted `X` is placed at once, if it is flagged the `aiMove` timer finds the game
inactive and the correction places `X`.  Either way a reachable board holds two `X`
and no `O`. -/
theorem learning_double_move :
    ∃ c : LocalConfig, LocalReachable Mode.learning c ∧ c.1.mode = Mode.learning ∧
      markCount c.1.board Mark.X = 2 ∧ markCount c.1.board Mark.O = 0 ∧
      ¬ alternates c.1.board := by
  have hpol := coaching_policy_aux learnAfterFirst 1 rfl rfl rfl rfl
  have hclick := LocalReachable.step learnAfterFirst_reachable
    (LocalStep.click learnAfterFirst [Effect.scheduleAi] 1)
  have hX : learnAfterFirst.playerMark = Mark.X := rfl
  rw [hX] at hpol
  generalize handleCellClick learnAfterFirst 1 = res at hpol hclick
  by_cases hmem : 1 ∈ (getBestMoves learnAfterFirst.board Mark.X).moves
  · obtain ⟨hcm, hboard, _⟩ := hpol.1 hmem
    have hmode : res.1.mode = Mode.learning := by
      rw [hcm, commitMove_mode]
      rfl
    exact double_move_violation res.1 ([Effect.scheduleAi] ++ res.2)
      hclick hmode 1 (by decide) rfl hboard
  · obtain ⟨c, _, hcM, _, hcl, hfire, _, _, _⟩ := hpol.2 hmem
    obtain ⟨g1, _, _, _⟩ := getBestMoves_char learnAfterFirst.board Mark.X
    obtain ⟨⟨hc9, hce⟩, _⟩ := (g1 c).mp hcM
    subst hcl
    have hidle : aiMove { learnAfterFirst with isActive := false } 0 =
        ({ learnAfterFirst with isActive := false }, []) := by
      simp [aiMove]
    have hai := LocalReachable.step hclick
      (LocalStep.ai { learnAfterFirst with isActive := false }
        ([Effect.scheduleAi] ++ [Effect.scheduleCorrection c]) 0 (by simp))
    rw [hidle] at hai
    have hcorr := LocalReachable.step hai
      (LocalStep.correction { learnAfterFirst with isActive := false }
        (([Effect.scheduleAi] ++ [Effect.scheduleCorrection c]).erase Effect.scheduleAi ++ [])
        c (by simp))
    have hmode : (correctionFire { learnAfterFirst with isActive := false } c).1.mode =
        Mode.learning := by
      unfold correctionFire
      rw [commitMove_mode]
      rfl
    exact double_move_violation _ _ hcorr hmode c hc9 hce hfire

theorem markCount_set (board : Board) (i : Nat) (p : Mark) (he : board[i]? = some none) :
    markCount (board.set i (some p)) p = markCount board p + 1 ∧
      markCount (board.set i (some p)) p.other = markCount board p.other := by
  have hlen : i < board.length := by
    rcases Nat.lt_or_ge i board.length with h | h
    · exact h
    · rw [List.getElem?_eq_none h] at he; cases he
  have hget : board[i] = none := by
    rw [List.getElem?_eq_getElem hlen] at he
    injection he
  unfold markCount
  rw [List.count_set _ _ _ _ hlen, List.count_set _ _ _ _ hlen, hget]
  cases p <;> simp [Mark.other]

theorem commitMove_playerMark (s : GameState) (index : Nat) (player : Mark) :
    (commitMove s index player).1.playerMark = s.playerMark := by
  unfold commitMove
  split
  · rfl
  · simp only []
    split
    · rfl
    · split <;> split <;> rfl

theorem commitMove_effects (s : GameState) (index : Nat) (player : Mark) :
    ∀ e ∈ (commitMove s index player).2, e = Effect.scheduleAi := by
  unfold commitMove
  split
  · simp
  · simp only []
    split
    · simp
    · split <;> split <;> simp

/-- A standard-mode click is ignored or commits the human's mark on an empty cell in the
human's turn of an active game. -/
theorem handleCellClick_standard (s : GameState) (index : Nat) (hm : s.mode = Mode.standard) :
    handleCellClick s index = (s, []) ∨
      (s.isActive = true ∧ s.board[index]? = some none ∧
        s.currentPlayer = some s.playerMark ∧
        handleCellClick s index = commitMove s index s.playerMark) := by
  unfold handleCellClick
  by_cases h1 : (!s.isActive || decide (s.board[index]? ≠ some none)) = true
  · left; rw [if_pos h1]
  · rw [if_neg h1]
    by_cases h2 : s.mode = Mode.standard ∧ s.currentPlayer ≠ some s.playerMark
    · left; rw [if_pos h2]
    · rw [if_neg h2]
      right
      have ha : s.isActive = true := by
        cases hs : s.isActive
        · simp [hs] at h1
        · rfl
      have he : s.board[index]? = some none := by
        by_contra hne
        simp [hne] at h1
      have hc : s.currentPlayer = some s.playerMark := by
        by_contra hne
        exact h2 ⟨hm, hne⟩
      refine ⟨ha, he, hc, ?_⟩
      simp [hm]

/-- An `aiMove` is ignored or commits the mark whose turn it is on an empty cell of an
active game. -/
theorem aiMove_cases (s : GameState) (r : Nat) :
    aiMove s r = (s, []) ∨
      ∃ aiMark pick, s.isActive = true ∧ s.currentPlayer = some aiMark ∧
        s.board[pick]? = some none ∧ aiMove s r = commitMove s pick aiMark := by
  unfold aiMove
  by_cases h1 : (!s.isActive) = true
  · left; rw [if_pos h1]
  · rw [if_neg h1]
    by_cases h2 : s.currentPlayer = some s.playerMark
    · left; rw [if_pos h2]
    · rw [if_neg h2]
      cases hc : s.currentPlayer with
      | none => left; rfl
      | some aiMark =>
        simp only []
        by_cases h3 : 0 < (getBestMoves s.board aiMark).moves.length
        · rw [if_pos h3]
          cases hp : (getBestMoves s.board aiMark).moves[r %
              (getBestMoves s.board aiMark).moves.length]? with
          | none => left; rfl
          | some pick =>
            right
            have hmem : pick ∈ (getBestMoves s.board aiMark).moves :=
              List.mem_iff_getElem?.mpr ⟨_, hp⟩
            obtain ⟨g1, _, _, _⟩ := getBestMoves_char s.board aiMark
            have ha : s.isActive = true := by
              cases hs : s.isActive
              · simp [hs] at h1
              · rfl
            exact ⟨aiMark, pick, ha, rfl, ((g1 pick).mp hmem).1.2, rfl⟩
        · left; rw [if_neg h3]

/-- A move committed on an empty cell: the board gets the mark, and if the game stays
active the turn passes to the other mark. -/
theorem commitMove_result (s : GameState) (i : Nat) (p : Mark)
    (he : s.board[i]? = some none) :
    (commitMove s i p).1.board = s.board.set i (some p) ∧
      ((commitMove s i p).1.isActive = true →
        (commitMove s i p).1.currentPlayer = some p.other) := by
  have hflip : (if p = Mark.X then Mark.O else Mark.X) = p.other := by
    cases p <;> rfl
  unfold commitMove
  simp only [he, ne_eq, not_true_eq_false, if_false, hflip]
  cases hw : checkWin (s.board.set i (some p)) with
  | some res => simp [endGame]
  | none =>
    simp only []
    split <;> simp

/-- The invariant of a standard-mode game with first mover `first`. -/
theorem commitMove_standard_invariant (s : GameState) (first p : Mark) (i : Nat)
    (ha : s.isActive = true) (hc : s.currentPlayer = some p) (he : s.board[i]? = some none)
    (hact : s.isActive = true →
      (s.currentPlayer = some first ∧
        markCount s.board first = markCount s.board first.other) ∨
      (s.currentPlayer = some first.other ∧
        markCount s.board first = markCount s.board first.other + 1)) :
    ((commitMove s i p).1.isActive = true →
      ((commitMove s i p).1.currentPlayer = some first ∧
        markCount (commitMove s i p).1.board first =
          markCount (commitMove s i p).1.board first.other) ∨
      ((commitMove s i p).1.currentPlayer = some first.other ∧
        markCount (commitMove s i p).1.board first =
          markCount (commitMove s i p).1.board first.other + 1)) ∧
    (markCount (commitMove s i p).1.board first =
        markCount (commitMove s i p).1.board first.other ∨
      markCount (commitMove s i p).1.board first =
        markCount (commitMove s i p).1.board first.other + 1) := by
  obtain ⟨hsame, hoth⟩ := markCount_set s.board i p he
  obtain ⟨hboard, hturn⟩ := commitMove_result s i p he
  rw [hboard]
  rcases hact ha with ⟨h1, h2⟩ | ⟨h1, h2⟩
  · have hp : p = first := by
      rw [hc] at h1
      injection h1
    subst hp
    refine ⟨fun hact' => Or.inr ⟨hturn hact', by omega⟩, Or.inr (by omega)⟩
  · have hp : p = first.other := by
      rw [hc] at h1
      injection h1
    subst hp
    rw [Mark.other_other] at hoth hturn
    refine ⟨fun hact' => Or.inl ⟨hturn hact', by omega⟩, Or.inl (by omega)⟩

/-- The invariant of the local controller in standard mode: only `aiMove` timers are
pending, while the game is active the turn tells which side has one mark more, and the
first mover has as many marks as the other side or one more. -/
theorem standard_invariant (c : LocalConfig) (h : LocalReachable Mode.standard c) :
    ∃ first : Mark, c.1.mode = Mode.standard ∧ (∀ e ∈ c.2, e = Effect.scheduleAi) ∧
      (c.1.isActive = true →
        (c.1.currentPlayer = some first ∧
          markCount c.1.board first = markCount c.1.board first.other) ∨
        (c.1.currentPlayer = some first.other ∧
          markCount c.1.board first = markCount c.1.board first.other + 1)) ∧
      (markCount c.1.board first = markCount c.1.board first.other ∨
        markCount c.1.board first = markCount c.1.board first.other + 1) := by
  induction h with
  | start s pMark starter =>
    refine ⟨starter, rfl, ?_, ?_, ?_⟩
    · intro e he
      simp only [startLocalGame] at he
      split at he
      · simpa using he
      · simp at he
    · intro _
      left
      refine ⟨rfl, ?_⟩
      cases starter <;> rfl
    · left
      cases starter <;> rfl
  | step hprev hstep ih =>
    obtain ⟨first, hmode, htimers, hact, hcount⟩ := ih
    cases hstep with
    | click s timers index =>
      rcases handleCellClick_standard s index hmode with heq | ⟨ha, he, hc, heq⟩
      · rw [heq]
        exact ⟨first, hmode, by simpa using htimers, hact, hcount⟩
      · rw [heq]
        obtain ⟨h1, h2⟩ := commitMove_standard_invariant s first s.playerMark index ha hc he hact
        refine ⟨first, by rw [commitMove_mode]; exact hmode, ?_, h1, h2⟩
        intro e hmem
        rcases List.mem_append.mp hmem with hmem | hmem
        · exact htimers e hmem
        · exact commitMove_effects s index s.playerMark e hmem
    | ai s timers r hpending =>
      rcases aiMove_cases s r with heq | ⟨aiMark, pick, ha, hc, he, heq⟩
      · rw [heq]
        refine ⟨first, hmode, ?_, hact, hcount⟩
        intro e hmem
        rcases List.mem_append.mp hmem with hmem | hmem
        · exact htimers e (List.mem_of_mem_erase hmem)
        · cases hmem
      · rw [heq]
        obtain ⟨h1, h2⟩ := commitMove_standard_invariant s first aiMark pick ha hc he hact
        refine ⟨first, by rw [commitMove_mode]; exact hmode, ?_, h1, h2⟩
        intro e hmem
        rcases List.mem_append.mp hmem with hmem | hmem
        · exact htimers e (List.mem_of_mem_erase hmem)
        · exact commitMove_effects s pick aiMark e hmem
    | correction s timers c hpending =>
      have := htimers _ hpending
      cases this

/-- In standard mode, where `handleCellClick` has the turn guard, every reachable board
satisfies the mark-count invariant. -/
theorem standard_alternates (c : LocalConfig) (h : LocalReachable Mode.standard c) :
    alternates c.1.board := by
  obtain ⟨first, _, _, _, hcount⟩ := standard_invariant c h
  exact ⟨first, hcount⟩

end TicTacToe
